import Mathlib

/-!
Verification of the MST program `src/mst-solution.c` (sequential and
parallel Prim and Kruskal over MPI).

The C code is shallowly embedded: C `int` values are modelled as `Int`
(all quantities the program manipulates — vertex ids, weights, ranks,
counts — are small and non-negative under the spec's data model, so no
wrap-around can occur at 32 bits and unbounded integers are faithful);
arrays become total functions or lists; in-place mutation becomes
explicit state passing.  The distributed environment (process ranks,
the broadcast adjacency matrix, blocking point-to-point messages and
collectives) is modelled from the spec: every rank sees the same full
`N × N` adjacency matrix `adj`, and the deterministic communication
schedule is replayed as a pure function.
-/

set_option maxHeartbeats 1000000

namespace MST

/-- `struct Edge`: endpoints `i`, `j` and weight `w`, three C `int`s. -/
structure Edge where
  i : Int
  j : Int
  w : Int
deriving DecidableEq, Repr

/-- `init_edge`: canonicalise an unordered pair, the smaller endpoint is
stored in `i`, the larger in `j`. -/
def init_edge (i j w : Int) : Edge :=
  ⟨if i < j then i else j, if j > i then j else i, w⟩

/-- `cmp_edges`: three-way comparison — weight first, then smaller
endpoint, then larger endpoint.  Returns the C `int` difference. -/
def cmp_edges (a b : Edge) : Int :=
  if a.w ≠ b.w then a.w - b.w
  else if a.i ≠ b.i then a.i - b.i
  else a.j - b.j

/-- The strict lexicographic edge order the spec describes: lower weight
first, then lower `i`, then lower `j`. -/
def edgeLt (a b : Edge) : Prop :=
  a.w < b.w ∨ (a.w = b.w ∧ (a.i < b.i ∨ (a.i = b.i ∧ a.j < b.j)))

instance : DecidableRel edgeLt := fun a b => by
  unfold edgeLt; infer_instance

/-- The non-strict order induced by `cmp_edges`, used to model `qsort`. -/
def edgeLe (a b : Edge) : Prop := cmp_edges a b ≤ 0

instance : DecidableRel edgeLe := fun a b => by
  unfold edgeLe; infer_instance

/-- `create_edges`: gather the non-zero entries of the upper triangle
(`i ≤ j < N`, row-major order) of the adjacency matrix into edges.
Returns the list written to the output buffer (the C function returns its
length). -/
def create_edges (N : Nat) (adj : Int → Int → Int) : List Edge :=
  (List.range N).flatMap (fun i =>
    (List.range N).filterMap (fun j =>
      if i ≤ j ∧ adj i j ≠ 0 then some (init_edge i j (adj i j)) else none))

/-- `qsort(edges, n, sizeof(Edge), cmp_edges)`.  `cmp_edges a b = 0`
forces `a = b` (the order is total and antisymmetric), so every
comparison sort produces the same list; we model it by insertion sort. -/
def sortEdges (l : List Edge) : List Edge := List.insertionSort edgeLe l

theorem cmp_edges_eq_zero {a b : Edge} : cmp_edges a b = 0 ↔ a = b := by
  unfold cmp_edges
  constructor
  · intro h
    split at h
    · omega
    · split at h
      · omega
      · rename_i hw hi
        simp only [ne_eq, Decidable.not_not] at hw hi
        have hj : a.j = b.j := by omega
        cases a; cases b
        simp only [Edge.mk.injEq]
        exact ⟨hi, hj, hw⟩
  · rintro rfl; simp

theorem cmp_edges_lt_iff {a b : Edge} : cmp_edges a b < 0 ↔ edgeLt a b := by
  unfold cmp_edges edgeLt
  split
  · rename_i hw
    constructor
    · intro h; exact Or.inl (by omega)
    · rintro (h | ⟨h, _⟩)
      · omega
      · exact absurd h hw
  · rename_i hw
    simp only [ne_eq, Decidable.not_not] at hw
    split
    · rename_i hi
      constructor
      · intro h; exact Or.inr ⟨hw, Or.inl (by omega)⟩
      · rintro (h | ⟨_, h | ⟨h, _⟩⟩)
        · omega
        · omega
        · exact absurd h hi
    · rename_i hi
      simp only [ne_eq, Decidable.not_not] at hi
      constructor
      · intro h; exact Or.inr ⟨hw, Or.inr ⟨hi, by omega⟩⟩
      · rintro (h | ⟨_, h | ⟨_, h⟩⟩)
        · omega
        · omega
        · omega

theorem edgeLt_asymm {a b : Edge} (h : edgeLt a b) : ¬ edgeLt b a := by
  rcases h with h | ⟨hw, h | ⟨hi, hj⟩⟩ <;>
    rintro (h' | ⟨hw', h' | ⟨hi', hj'⟩⟩) <;> omega

theorem cmp_edges_antisymm (a b : Edge) : cmp_edges a b = - cmp_edges b a := by
  unfold cmp_edges
  split_ifs <;> omega

/-- `C6`: on edges with non-negative weights and endpoints in `[0, N)`,
`cmp_edges a b` is negative exactly when `a` lexicographically precedes
`b` (weight, then `i`, then `j`), positive exactly when `b` precedes
`a`, and zero exactly when the two edges are field-wise equal — so
`cmp_edges` realizes the strict total edge order of the spec. -/
theorem C6_cmp_edges_strict_total_order (N : Nat) (a b : Edge)
    (haw : 0 ≤ a.w) (hbw : 0 ≤ b.w)
    (hai : 0 ≤ a.i) (haiN : a.i < N) (haj : 0 ≤ a.j) (hajN : a.j < N)
    (hbi : 0 ≤ b.i) (hbiN : b.i < N) (hbj : 0 ≤ b.j) (hbjN : b.j < N) :
    (cmp_edges a b < 0 ↔ edgeLt a b) ∧
    (0 < cmp_edges a b ↔ edgeLt b a) ∧
    (cmp_edges a b = 0 ↔ a = b) := by
  refine ⟨cmp_edges_lt_iff, ?_, cmp_edges_eq_zero⟩
  rw [cmp_edges_antisymm a b]
  constructor
  · intro h; exact cmp_edges_lt_iff.mp (by omega)
  · intro h; have := cmp_edges_lt_iff.mpr h; omega

/-- Witness for `C6` at a concrete pair of edges. -/
theorem C6_cmp_edges_strict_total_order_witness :
    ((0:Int) ≤ 2 ∧ (0:Int) ≤ 2 ∧ (0:Int) ≤ 0 ∧ (0:Int) < 3 ∧ (0:Int) ≤ 1 ∧
      (1:Int) < 3 ∧ (0:Int) ≤ 0 ∧ (0:Int) < 3 ∧ (0:Int) ≤ 2 ∧ (2:Int) < 3) ∧
    ((cmp_edges ⟨0, 1, 2⟩ ⟨0, 2, 2⟩ < 0 ↔ edgeLt ⟨0, 1, 2⟩ ⟨0, 2, 2⟩) ∧
      (0 < cmp_edges ⟨0, 1, 2⟩ ⟨0, 2, 2⟩ ↔ edgeLt ⟨0, 2, 2⟩ ⟨0, 1, 2⟩) ∧
      (cmp_edges ⟨0, 1, 2⟩ ⟨0, 2, 2⟩ = 0 ↔ (⟨0, 1, 2⟩ : Edge) = ⟨0, 2, 2⟩)) :=
  ⟨by decide,
   C6_cmp_edges_strict_total_order 3 ⟨0, 1, 2⟩ ⟨0, 2, 2⟩ (by decide) (by decide)
     (by decide) (by decide) (by decide) (by decide) (by decide) (by decide)
     (by decide) (by decide)⟩

/-!  Disjoint-set forest (`struct Node`, `create_nodes`, `find`, `fusion`,
`union_find`).  The C `Node*` array becomes a total function `Int → Node`;
the C code allocates `N` cells and only ever accesses vertices in `[0, N)`. -/

/-- `struct Node`: father pointer and union-by-rank rank, two C `int`s. -/
structure Node where
  father : Int
  rank : Int
deriving DecidableEq, Repr

/-- `create_nodes`: every vertex is its own father with rank 1. -/
def create_nodes : Int → Node := fun v => ⟨v, 1⟩

/-- `find` with full path compression.  The C function recurses along the
father chain with no bound; the model adds explicit fuel, and the callers
pass fuel `N`, which `find_spec` below proves sufficient on every state the
program reaches (ranks strictly increase along father chains, and all
non-root vertices lie in `[0, N)`, so chains are shorter than `N`). -/
def find : Nat → (Int → Node) → Int → ((Int → Node) × Int)
  | 0, nodes, node => (nodes, node)
  | fuel+1, nodes, node =>
    if (nodes node).father = node then (nodes, node)
    else
      let p := find fuel nodes (nodes node).father
      (Function.update p.1 node ⟨p.2, (p.1 node).rank⟩, p.2)

/-- Body of `fusion` after its argument-normalising recursive swap:
`root1` (the root of smaller or equal rank) is pointed at `root2`, and on a
rank tie the winner's rank is incremented. -/
def fusionGo (nodes : Int → Node) (root1 root2 : Int) : Int → Node :=
  let n1 := Function.update nodes root1 ⟨root2, (nodes root1).rank⟩
  if (n1 root1).rank = (n1 root2).rank then
    Function.update n1 root2 ⟨(n1 root2).father, (n1 root2).rank + 1⟩
  else n1

/-- `fusion`: union by rank of two roots.  The C version recurses once with
swapped arguments when `rank root1 > rank root2`; after the swap the guard
is false, so it equals this non-recursive form. -/
def fusion (nodes : Int → Node) (root1 root2 : Int) : Int → Node :=
  if (nodes root1).rank > (nodes root2).rank then fusionGo nodes root2 root1
  else fusionGo nodes root1 root2

/-- The loop of `union_find`: scan the edges in order while fewer than
`N - 1` edges have been emitted; an edge whose endpoints have distinct
roots is appended to the tree and its roots are fused.  `acc` is phrased
as the already-emitted tree, so the C counter `numEdge` is `acc.length`. -/
def union_find_go (N : Nat) : List Edge → (Int → Node) → List Edge → List Edge
  | [], _, acc => acc
  | e :: rest, nodes, acc =>
    if acc.length < N - 1 then
      let p1 := find N nodes e.i
      let p2 := find N p1.1 e.j
      if p1.2 ≠ p2.2 then
        union_find_go N rest (fusion p2.1 p1.2 p2.2) (acc ++ [e])
      else
        union_find_go N rest p2.1 acc
    else acc

/-- `union_find(edges, N, M, tree)`: the edge array has length `M`; the
returned C value is the length of this list. -/
def union_find (edges : List Edge) (N : Nat) : List Edge :=
  union_find_go N edges create_nodes []

/-- `sequential_kruskal`: the edge buffer is `calloc`ed with `M` zero
entries, `create_edges` overwrites a leading portion, and all `M` entries
are sorted and fed to `union_find`.  (When the true edge count exceeds `M`
the C code overruns its buffer; theorems about this function assume the
spec's precondition that the count is at most `M`.) -/
def sequential_kruskal (N M : Nat) (adj : Int → Int → Int) : List Edge :=
  let es := create_edges N adj
  union_find (sortEdges (es ++ List.replicate (M - es.length) ⟨0, 0, 0⟩)) N

/-!  Semantic layer for the disjoint-set forest: father-chain reachability,
roots, and the rank invariant that bounds chain length. -/

/-- A vertex is a root when it is its own father. -/
def isRoot (nodes : Int → Node) (v : Int) : Prop := (nodes v).father = v

instance (nodes : Int → Node) (v : Int) : Decidable (isRoot nodes v) := by
  unfold isRoot; infer_instance

/-- One father-chain step from a non-root vertex. -/
def ufStep (nodes : Int → Node) (a b : Int) : Prop :=
  (nodes a).father ≠ a ∧ (nodes a).father = b

/-- Father-chain reachability. -/
def Reaches (nodes : Int → Node) : Int → Int → Prop :=
  Relation.ReflTransGen (ufStep nodes)

/-- Fuel-bounded father-chain chase without compression. -/
def rootAux : Nat → (Int → Node) → Int → Int
  | 0, _, v => v
  | fuel+1, nodes, v =>
    if (nodes v).father = v then v else rootAux fuel nodes (nodes v).father

/-- The root of `v`'s class, computed with the fuel the program uses. -/
def rootD (N : Nat) (nodes : Int → Node) (v : Int) : Int := rootAux N nodes v

/-- State invariant of the union-find structure: every non-root vertex and
its father lie in `[0, N)`, and ranks strictly increase towards the root.
It holds for `create_nodes` and is preserved by `find` and `fusion`. -/
def UFInv (N : Nat) (nodes : Int → Node) : Prop :=
  ∀ v : Int, ¬ isRoot nodes v →
    (0 ≤ v ∧ v < N) ∧ (0 ≤ (nodes v).father ∧ (nodes v).father < N) ∧
    (nodes v).rank < (nodes (nodes v).father).rank

theorem ufStep_functional {nodes : Int → Node} {a b b' : Int}
    (h : ufStep nodes a b) (h' : ufStep nodes a b') : b = b' :=
  h.2.symm.trans h'.2

theorem reaches_of_isRoot {nodes : Int → Node} {r s : Int}
    (hr : isRoot nodes r) (h : Reaches nodes r s) : s = r := by
  rcases (Relation.ReflTransGen.cases_head h) with rfl | ⟨x, hstep, _⟩
  · rfl
  · exact absurd hr (by simpa [isRoot, hstep.2] using hstep.1)

/-- A vertex reaches at most one root. -/
theorem reaches_root_unique {nodes : Int → Node} {v r r' : Int}
    (h : Reaches nodes v r) (hr : isRoot nodes r)
    (h' : Reaches nodes v r') (hr' : isRoot nodes r') : r = r' := by
  induction h using Relation.ReflTransGen.head_induction_on with
  | refl => exact (reaches_of_isRoot hr h').symm
  | head hstep _ ih =>
    rename_i a x _
    rcases (Relation.ReflTransGen.cases_head h') with rfl | ⟨x', hstep', htail⟩
    · exact absurd hr' (by simpa [isRoot, hstep.2] using hstep.1)
    · exact ih (ufStep_functional hstep' hstep ▸ htail)

theorem rootAux_reaches (fuel : Nat) (nodes : Int → Node) (v : Int) :
    Reaches nodes v (rootAux fuel nodes v) := by
  induction fuel generalizing v with
  | zero => exact Relation.ReflTransGen.refl
  | succ fuel ih =>
    unfold rootAux
    split
    · exact Relation.ReflTransGen.refl
    · rename_i h
      exact Relation.ReflTransGen.head ⟨h, rfl⟩ (ih _)

theorem rootAux_of_isRoot {nodes : Int → Node} {v : Int} (h : isRoot nodes v)
    (fuel : Nat) : rootAux fuel nodes v = v := by
  cases fuel <;> simp [rootAux, isRoot] at h ⊢ <;> simp [h]

theorem rootAux_isRoot_of_iterate {nodes : Int → Node} :
    ∀ (fuel k : Nat) (v : Int), k ≤ fuel →
      isRoot nodes ((fun x => (nodes x).father)^[k] v) →
      isRoot nodes (rootAux fuel nodes v) := by
  intro fuel
  induction fuel with
  | zero => intro k v hk h; interval_cases k; simpa using h
  | succ fuel ih =>
    intro k v hk h
    unfold rootAux
    split
    · rename_i hv; exact hv
    · rename_i hv
      cases k with
      | zero => exact absurd (by simpa using h) hv
      | succ k =>
        exact ih k _ (by omega) (by
          simpa [Function.iterate_succ_apply] using h)

theorem rank_add_le_iterate {N : Nat} {nodes : Int → Node}
    (hInv : UFInv N nodes) (v : Int) :
    ∀ (k b : Nat), b ≤ k →
      (∀ m, m < k → ¬ isRoot nodes ((fun x => (nodes x).father)^[m] v)) →
      (nodes v).rank + b ≤ (nodes ((fun x => (nodes x).father)^[b] v)).rank := by
  intro k b
  induction b with
  | zero => simp
  | succ b ih =>
    intro hb hroots
    have h1 := ih (by omega) hroots
    have hnr : ¬ isRoot nodes ((fun x => (nodes x).father)^[b] v) :=
      hroots b (by omega)
    have h2 := (hInv _ hnr).2.2
    rw [Function.iterate_succ_apply']
    omega

theorem iterate_inRange {N : Nat} {nodes : Int → Node}
    (hInv : UFInv N nodes) (v : Int) (b : Nat)
    (h : ¬ isRoot nodes ((fun x => (nodes x).father)^[b] v)) :
    0 ≤ (fun x => (nodes x).father)^[b] v ∧
      (fun x => (nodes x).father)^[b] v < N :=
  (hInv _ h).1

/-- Under the invariant, the father chain of any in-range (or root) vertex
reaches a root in at most `N` steps: all non-root vertices along the chain
are distinct (their ranks strictly grow) and lie in `[0, N)`. -/
theorem exists_root_within {N : Nat} {nodes : Int → Node}
    (hInv : UFInv N nodes) (v : Int)
    (hv : (0 ≤ v ∧ v < N) ∨ isRoot nodes v) :
    ∃ k, k ≤ N ∧ isRoot nodes ((fun x => (nodes x).father)^[k] v) := by
  by_contra hcon
  push_neg at hcon
  have hnr : ∀ m, m < N + 1 → ¬ isRoot nodes ((fun x => (nodes x).father)^[m] v) :=
    fun m hm => hcon m (by omega)
  have hrange : ∀ k : Fin (N + 1),
      0 ≤ (fun x => (nodes x).father)^[(k : Nat)] v ∧
        (fun x => (nodes x).father)^[(k : Nat)] v < N :=
    fun k => iterate_inRange hInv v k (hnr k k.isLt)
  have hinj : Function.Injective
      (fun k : Fin (N + 1) =>
        (⟨((fun x => (nodes x).father)^[(k : Nat)] v).toNat, by
          have := hrange k; omega⟩ : Fin N)) := by
    intro k l hkl
    simp only [Fin.mk.injEq] at hkl
    by_contra hne
    have key : ∀ a b : Fin (N + 1), (a : Nat) < (b : Nat) →
        ((fun x => (nodes x).father)^[(a : Nat)] v).toNat ≠
          ((fun x => (nodes x).father)^[(b : Nat)] v).toNat := by
      intro a b hab
      have h1 := rank_add_le_iterate hInv v (N + 1) a (by omega) hnr
      have h2 := rank_add_le_iterate hInv
        ((fun x => (nodes x).father)^[(a : Nat)] v) (N + 1 - a) (b - a)
        (by omega) (fun m hm => by
          rw [← Function.iterate_add_apply]
          exact hnr (m + a) (by omega))
      rw [← Function.iterate_add_apply] at h2
      have hba : (b : Nat) - (a : Nat) + (a : Nat) = (b : Nat) := by omega
      rw [hba] at h2
      have ha := hrange a
      have hb := hrange b
      intro h
      have : (fun x => (nodes x).father)^[(a : Nat)] v =
          (fun x => (nodes x).father)^[(b : Nat)] v := by omega
      rw [this] at h2
      omega
    rcases Nat.lt_or_ge (k : Nat) (l : Nat) with h | h
    · exact key k l h hkl
    · have : (l : Nat) < (k : Nat) := by
        rcases Nat.lt_or_ge (l : Nat) (k : Nat) with h' | h'
        · exact h'
        · exact absurd (Fin.ext (by omega)) hne
      exact key l k this hkl.symm
  have := Fintype.card_le_of_injective _ hinj
  simp at this

theorem rootD_isRoot {N : Nat} {nodes : Int → Node} (hInv : UFInv N nodes)
    {v : Int} (hv : (0 ≤ v ∧ v < N) ∨ isRoot nodes v) :
    isRoot nodes (rootD N nodes v) := by
  obtain ⟨k, hk, hroot⟩ := exists_root_within hInv v hv
  exact rootAux_isRoot_of_iterate N k v hk hroot

theorem rootD_reaches (N : Nat) (nodes : Int → Node) (v : Int) :
    Reaches nodes v (rootD N nodes v) := rootAux_reaches N nodes v

/-- `rootD` is the unique root reachable from `v`. -/
theorem rootD_eq_of_reaches {N : Nat} {nodes : Int → Node} (hInv : UFInv N nodes)
    {v r : Int} (hv : (0 ≤ v ∧ v < N) ∨ isRoot nodes v)
    (h : Reaches nodes v r) (hr : isRoot nodes r) : rootD N nodes v = r :=
  reaches_root_unique (rootD_reaches N nodes v) (rootD_isRoot hInv hv) h hr

theorem rootD_of_isRoot {N : Nat} {nodes : Int → Node} {v : Int}
    (h : isRoot nodes v) : rootD N nodes v = v :=
  rootAux_of_isRoot h N

theorem reaches_inRange {N : Nat} {nodes : Int → Node} (hInv : UFInv N nodes)
    {v r : Int} (hv : 0 ≤ v ∧ v < N) (h : Reaches nodes v r) :
    0 ≤ r ∧ r < N := by
  rcases (Relation.ReflTransGen.cases_tail h) with rfl | ⟨b, _, hstep⟩
  · exact hv
  · exact hstep.2 ▸ (hInv b (by simpa [isRoot, hstep.2] using hstep.1)).2.1

theorem rootD_inRange {N : Nat} {nodes : Int → Node} (hInv : UFInv N nodes)
    {v : Int} (hv : 0 ≤ v ∧ v < N) :
    0 ≤ rootD N nodes v ∧ rootD N nodes v < N :=
  reaches_inRange hInv hv (rootD_reaches N nodes v)

theorem UFInv_create_nodes (N : Nat) : UFInv N create_nodes := by
  intro v hv
  exact absurd rfl hv

theorem rootD_create_nodes (N : Nat) (v : Int) : rootD N create_nodes v = v :=
  rootD_of_isRoot rfl

theorem rank_lt_of_reaches {N : Nat} {nodes : Int → Node} (hInv : UFInv N nodes)
    {v r : Int} (h : Reaches nodes v r) :
    v ≠ r → (nodes v).rank < (nodes r).rank := by
  induction h using Relation.ReflTransGen.head_induction_on with
  | refl => intro h; exact absurd rfl h
  | @head a x hstep htail ih =>
    intro _
    have h1 : (nodes a).rank < (nodes x).rank :=
      hstep.2 ▸ (hInv a (by simpa [isRoot] using hstep.1)).2.2
    by_cases hx : x = r
    · subst hx; omega
    · have := ih hx; omega

/-- Redirecting the father of a non-root vertex `v` straight to a root it
reaches changes no root and no reachability-to-a-root (path compression is
semantically invisible). -/
theorem update_compress_reaches {nodes : Int → Node} {v r : Int} (rk : Int)
    (hv : ¬ isRoot nodes v) (hvr : Reaches nodes v r) (hroot : isRoot nodes r) :
    (∀ w, isRoot (Function.update nodes v ⟨r, rk⟩) w ↔ isRoot nodes w) ∧
    (∀ w s, isRoot nodes s →
      (Reaches (Function.update nodes v ⟨r, rk⟩) w s ↔ Reaches nodes w s)) := by
  have hrv : r ≠ v := fun h => hv (h ▸ hroot)
  constructor
  · intro w
    by_cases hwv : w = v
    · subst hwv
      simp only [isRoot, Function.update_same]
      constructor
      · intro h; exact absurd (h ▸ hroot) hv
      · intro h; exact absurd h hv
    · simp [isRoot, Function.update_noteq hwv]
  · intro w s hs
    constructor
    · intro h
      induction h using Relation.ReflTransGen.head_induction_on with
      | refl => exact Relation.ReflTransGen.refl
      | @head a x hstep htail ih =>
        by_cases hav : a = v
        · subst hav
          have hx : x = r := by
            have h2s := hstep.2
            rw [Function.update_same] at h2s
            exact h2s.symm
          rw [hx] at ih
          have hsr : s = r := reaches_of_isRoot hroot ih
          rw [hsr]
          exact hvr
        · refine Relation.ReflTransGen.head ?_ ih
          have := hstep
          rwa [ufStep, Function.update_noteq hav] at this
    · intro h
      induction h using Relation.ReflTransGen.head_induction_on with
      | refl => exact Relation.ReflTransGen.refl
      | @head a x hstep htail ih =>
        by_cases hav : a = v
        · subst hav
          have hsr : s = r :=
            reaches_root_unique (Relation.ReflTransGen.head hstep htail) hs hvr hroot
          subst hsr
          exact Relation.ReflTransGen.single
            ⟨by rw [Function.update_same]; exact hrv, by rw [Function.update_same]⟩
        · refine Relation.ReflTransGen.head ?_ ih
          rw [ufStep, Function.update_noteq hav]
          exact hstep

/-- Path compression preserves the union-find invariant when the node keeps
its rank. -/
theorem update_compress_inv {N : Nat} {nodes : Int → Node} {v r : Int}
    (hInv : UFInv N nodes)
    (hv : ¬ isRoot nodes v) (hvr : Reaches nodes v r) (hroot : isRoot nodes r) :
    UFInv N (Function.update nodes v ⟨r, (nodes v).rank⟩) := by
  have hrv : r ≠ v := fun h => hv (h ▸ hroot)
  have hvrange := (hInv v hv).1
  have hrrange := reaches_inRange hInv hvrange hvr
  have hvrank : (nodes v).rank < (nodes r).rank :=
    rank_lt_of_reaches hInv hvr (fun h => hv (h ▸ hroot))
  have hn : ∀ x : Int, (Function.update nodes v ⟨r, (nodes v).rank⟩) x
      = if x = v then ⟨r, (nodes v).rank⟩ else nodes x :=
    fun x => Function.update_apply nodes v _ x
  intro w hw
  by_cases hwv : w = v
  · subst hwv
    refine ⟨hvrange, ?_, ?_⟩
    · rw [hn, if_pos rfl]
      exact hrrange
    · rw [hn, if_pos rfl]
      show (nodes w).rank < ((Function.update nodes w ⟨r, (nodes w).rank⟩) r).rank
      rw [hn, if_neg hrv]
      exact hvrank
  · have hw' : ¬ isRoot nodes w := by
      rwa [isRoot, hn, if_neg hwv] at hw
    obtain ⟨h1, h2, h3⟩ := hInv w hw'
    refine ⟨h1, ?_, ?_⟩
    · rw [hn, if_neg hwv]
      exact h2
    · rw [hn, if_neg hwv, hn]
      by_cases hfv : (nodes w).father = v
      · rw [if_pos hfv]
        show (nodes w).rank < (nodes v).rank
        rw [← hfv]
        exact h3
      · rw [if_neg hfv]
        exact h3

/-- Specification of `find`: given enough fuel (which `N` is, on every
reachable state), it returns the root of `v` and compresses the path,
preserving the invariant, all ranks, the set of roots, and
reachability-to-roots. -/
theorem find_spec {N : Nat} :
    ∀ (fuel : Nat) (nodes : Int → Node) (v : Int),
    UFInv N nodes →
    isRoot nodes (rootAux fuel nodes v) →
    (find fuel nodes v).2 = rootAux fuel nodes v ∧
    UFInv N (find fuel nodes v).1 ∧
    (∀ w, ((find fuel nodes v).1 w).rank = (nodes w).rank) ∧
    (∀ w, isRoot (find fuel nodes v).1 w ↔ isRoot nodes w) ∧
    (∀ w s, isRoot nodes s →
      (Reaches (find fuel nodes v).1 w s ↔ Reaches nodes w s)) := by
  intro fuel
  induction fuel with
  | zero =>
    intro nodes v hInv hroot
    exact ⟨rfl, hInv, fun _ => rfl, fun _ => Iff.rfl, fun _ _ _ => Iff.rfl⟩
  | succ fuel ih =>
    intro nodes v hInv hroot
    have hunf : find (fuel+1) nodes v =
        if (nodes v).father = v then (nodes, v)
        else
          (Function.update (find fuel nodes (nodes v).father).1 v
            ⟨(find fuel nodes (nodes v).father).2,
              ((find fuel nodes (nodes v).father).1 v).rank⟩,
            (find fuel nodes (nodes v).father).2) := rfl
    have hunfra : rootAux (fuel+1) nodes v =
        if (nodes v).father = v then v else rootAux fuel nodes (nodes v).father := rfl
    by_cases hv : (nodes v).father = v
    · have hfind : find (fuel+1) nodes v = (nodes, v) := by
        rw [hunf, if_pos hv]
      have hra : rootAux (fuel+1) nodes v = v := by
        rw [hunfra, if_pos hv]
      rw [hfind, hra]
      exact ⟨rfl, hInv, fun _ => rfl, fun _ => Iff.rfl, fun _ _ _ => Iff.rfl⟩
    · have hroot' : isRoot nodes (rootAux fuel nodes (nodes v).father) := by
        rw [hunfra, if_neg hv] at hroot
        exact hroot
      obtain ⟨h2, hInv', hrank', hroots', hreach'⟩ := ih nodes (nodes v).father hInv hroot'
      have hfind : find (fuel+1) nodes v =
          (Function.update (find fuel nodes (nodes v).father).1 v
            ⟨(find fuel nodes (nodes v).father).2,
              ((find fuel nodes (nodes v).father).1 v).rank⟩,
            (find fuel nodes (nodes v).father).2) := by
        rw [hunf, if_neg hv]
      have hra : rootAux (fuel+1) nodes v = rootAux fuel nodes (nodes v).father := by
        rw [hunfra, if_neg hv]
      set p := find fuel nodes (nodes v).father with hp
      set r := rootAux fuel nodes (nodes v).father with hr
      have hvnr : ¬ isRoot p.1 v := by
        rw [hroots' v]
        exact hv
      have hrootp : isRoot p.1 r := (hroots' r).mpr hroot'
      have hreachv : Reaches nodes v r :=
        Relation.ReflTransGen.head ⟨hv, rfl⟩ (rootAux_reaches fuel nodes (nodes v).father)
      have hreachvp : Reaches p.1 v r := (hreach' v r hroot').mpr hreachv
      have hcomp := update_compress_reaches (p.1 v).rank hvnr hreachvp hrootp
      have hcompInv : UFInv N (Function.update p.1 v ⟨r, (p.1 v).rank⟩) :=
        update_compress_inv hInv' hvnr hreachvp hrootp
      refine ⟨?_, ?_, ?_, ?_, ?_⟩
      · rw [hfind, hra]; exact h2
      · rw [hfind, h2]; exact hcompInv
      · intro w
        rw [hfind]
        show ((Function.update p.1 v ⟨p.2, (p.1 v).rank⟩) w).rank = (nodes w).rank
        by_cases hwv : w = v
        · subst hwv
          rw [Function.update_same]
          exact hrank' w
        · rw [Function.update_noteq hwv]
          exact hrank' w
      · intro w
        rw [hfind, h2]
        exact (hcomp.1 w).trans (hroots' w)
      · intro w s hs
        rw [hfind, h2]
        exact (hcomp.2 w s ((hroots' s).mpr hs)).trans (hreach' w s hs)

/-- `find` at the program's fuel `N`: returns the root, preserves the
invariant, the roots, and every vertex's root. -/
theorem find_N {N : Nat} {nodes : Int → Node} {v : Int} (hInv : UFInv N nodes)
    (hv : 0 ≤ v ∧ v < N) :
    (find N nodes v).2 = rootD N nodes v ∧
    UFInv N (find N nodes v).1 ∧
    (∀ w, isRoot (find N nodes v).1 w ↔ isRoot nodes w) ∧
    (∀ w : Int, (0 ≤ w ∧ w < (N : Int)) ∨ isRoot nodes w →
      rootD N (find N nodes v).1 w = rootD N nodes w) := by
  have hroot := rootD_isRoot hInv (Or.inl hv)
  obtain ⟨h1, h2, _h3, h4, h5⟩ := find_spec N nodes v hInv hroot
  refine ⟨h1, h2, h4, ?_⟩
  intro w hw
  have hrw : isRoot nodes (rootD N nodes w) := rootD_isRoot hInv hw
  have hrreach : Reaches (find N nodes v).1 w (rootD N nodes w) :=
    (h5 w _ hrw).mpr (rootD_reaches N nodes w)
  exact rootD_eq_of_reaches h2 (hw.imp id (h4 w).mpr) hrreach ((h4 _).mpr hrw)

theorem fusionGo_apply (nodes : Int → Node) (r1 r2 : Int) (hne : r1 ≠ r2) (x : Int) :
    fusionGo nodes r1 r2 x =
      if x = r1 then ⟨r2, (nodes r1).rank⟩
      else if x = r2 ∧ (nodes r1).rank = (nodes r2).rank then
        ⟨(nodes r2).father, (nodes r2).rank + 1⟩
      else nodes x := by
  have hbody : fusionGo nodes r1 r2 =
      if (nodes r1).rank = (nodes r2).rank then
        Function.update (Function.update nodes r1 ⟨r2, (nodes r1).rank⟩) r2
          ⟨(nodes r2).father, (nodes r2).rank + 1⟩
      else Function.update nodes r1 ⟨r2, (nodes r1).rank⟩ := by
    show (if (Function.update nodes r1 ⟨r2, (nodes r1).rank⟩ r1).rank
          = (Function.update nodes r1 ⟨r2, (nodes r1).rank⟩ r2).rank then
        Function.update (Function.update nodes r1 ⟨r2, (nodes r1).rank⟩) r2
          ⟨(Function.update nodes r1 ⟨r2, (nodes r1).rank⟩ r2).father,
            (Function.update nodes r1 ⟨r2, (nodes r1).rank⟩ r2).rank + 1⟩
      else Function.update nodes r1 ⟨r2, (nodes r1).rank⟩) = _
    rw [Function.update_same, Function.update_noteq (Ne.symm hne)]
  rw [hbody]
  by_cases htie : (nodes r1).rank = (nodes r2).rank
  · rw [if_pos htie, Function.update_apply]
    by_cases hx2 : x = r2
    · subst hx2
      rw [if_pos rfl, if_neg (Ne.symm hne), if_pos ⟨rfl, htie⟩]
    · rw [if_neg hx2, Function.update_apply]
      by_cases hx1 : x = r1
      · subst hx1
        rw [if_pos rfl, if_pos rfl]
      · rw [if_neg hx1, if_neg hx1, if_neg (fun h => hx2 h.1)]
  · rw [if_neg htie, Function.update_apply]
    by_cases hx1 : x = r1
    · subst hx1
      rw [if_pos rfl, if_pos rfl]
    · rw [if_neg hx1, if_neg hx1, if_neg (fun h => htie h.2)]

theorem fusion_eq (nodes : Int → Node) (r1 r2 : Int) :
    fusion nodes r1 r2 =
      if (nodes r1).rank > (nodes r2).rank then fusionGo nodes r2 r1
      else fusionGo nodes r1 r2 := rfl

/-- A root assignment collapsing `lose` onto `win` identifies `x` and `y`
exactly when they were already identified or both lie in the merged pair. -/
theorem collapse_eq_iff (win lose x y : Int) (hwl : win ≠ lose) :
    ((if x = lose then win else x) = (if y = lose then win else y)) ↔
      (x = y ∨ ((x = win ∨ x = lose) ∧ (y = win ∨ y = lose))) := by
  split_ifs <;> omega

theorem fusionGo_spec {N : Nat} {nodes : Int → Node} {r1 r2 : Int}
    (hInv : UFInv N nodes) (h1 : isRoot nodes r1) (h2 : isRoot nodes r2)
    (hne : r1 ≠ r2) (hr1 : 0 ≤ r1 ∧ r1 < N) (hr2 : 0 ≤ r2 ∧ r2 < N)
    (hrank : (nodes r1).rank ≤ (nodes r2).rank) :
    UFInv N (fusionGo nodes r1 r2) ∧
    (∀ w : Int, 0 ≤ w ∧ w < (N : Int) →
      rootD N (fusionGo nodes r1 r2) w =
        if rootD N nodes w = r1 then r2 else rootD N nodes w) := by
  have fa : ∀ x, (fusionGo nodes r1 r2 x).father =
      if x = r1 then r2 else (nodes x).father := by
    intro x
    rw [fusionGo_apply nodes r1 r2 hne x]
    split_ifs with hx1 hx2
    · rfl
    · rcases hx2 with ⟨hx2, _⟩
      subst hx2
      rfl
    · rfl
  have fr2 : (fusionGo nodes r1 r2 r2).rank =
      if (nodes r1).rank = (nodes r2).rank then (nodes r2).rank + 1
      else (nodes r2).rank := by
    rw [fusionGo_apply nodes r1 r2 hne r2]
    rw [if_neg (Ne.symm hne)]
    split_ifs with ha hb hc <;> simp_all
  have frne : ∀ x, x ≠ r2 → (fusionGo nodes r1 r2 x).rank = (nodes x).rank := by
    intro x hx
    rw [fusionGo_apply nodes r1 r2 hne x]
    split_ifs with ha hb
    · subst ha; rfl
    · exact absurd hb.1 hx
    · rfl
  have frmono : ∀ x, (nodes x).rank ≤ (fusionGo nodes r1 r2 x).rank := by
    intro x
    by_cases hx : x = r2
    · subst hx; rw [fr2]; split_ifs <;> omega
    · rw [frne x hx]
  have hlift : ∀ {w s : Int}, Reaches nodes w s → Reaches (fusionGo nodes r1 r2) w s := by
    intro w s h
    induction h using Relation.ReflTransGen.head_induction_on with
    | refl => exact Relation.ReflTransGen.refl
    | @head a x hstep htail ih =>
      have har1 : a ≠ r1 := by
        intro hcon
        subst hcon
        exact hstep.1 h1
      refine Relation.ReflTransGen.head ⟨?_, ?_⟩ ih
      · rw [fa a, if_neg har1]; exact hstep.1
      · rw [fa a, if_neg har1]; exact hstep.2
  have hroot2' : isRoot (fusionGo nodes r1 r2) r2 := by
    rw [isRoot, fa r2, if_neg (Ne.symm hne)]
    exact h2
  have hInv' : UFInv N (fusionGo nodes r1 r2) := by
    intro w hw
    by_cases hwr1 : w = r1
    · rw [hwr1]
      refine ⟨hr1, ?_, ?_⟩
      · rw [fa r1, if_pos rfl]
        exact hr2
      · rw [fa r1, if_pos rfl, frne r1 hne, fr2]
        split_ifs with htie <;> omega
    · rw [isRoot, fa w, if_neg hwr1] at hw
      obtain ⟨hw1, hw2, hw3⟩ := hInv w hw
      rw [fa w, if_neg hwr1]
      refine ⟨hw1, hw2, ?_⟩
      have hwne2 : w ≠ r2 := by
        intro hcon; subst hcon; exact hw h2
      rw [frne w hwne2]
      calc (nodes w).rank < (nodes (nodes w).father).rank := hw3
        _ ≤ (fusionGo nodes r1 r2 (nodes w).father).rank := frmono _
  refine ⟨hInv', ?_⟩
  intro w hwr
  by_cases hcase : rootD N nodes w = r1
  · rw [if_pos hcase]
    have hreach : Reaches (fusionGo nodes r1 r2) w r2 := by
      have hr : Reaches (fusionGo nodes r1 r2) w r1 :=
        hcase ▸ hlift (rootD_reaches N nodes w)
      refine Relation.ReflTransGen.trans hr (Relation.ReflTransGen.single ⟨?_, ?_⟩)
      · rw [fa r1, if_pos rfl]; exact hne.symm
      · rw [fa r1, if_pos rfl]
    exact rootD_eq_of_reaches hInv' (Or.inl hwr) hreach hroot2'
  · rw [if_neg hcase]
    have hreach : Reaches (fusionGo nodes r1 r2) w (rootD N nodes w) :=
      hlift (rootD_reaches N nodes w)
    have hroot' : isRoot (fusionGo nodes r1 r2) (rootD N nodes w) := by
      rw [isRoot, fa _, if_neg hcase]
      exact rootD_isRoot hInv (Or.inl hwr)
    exact rootD_eq_of_reaches hInv' (Or.inl hwr) hreach hroot'

theorem fusion_spec {N : Nat} {nodes : Int → Node} {r1 r2 : Int}
    (hInv : UFInv N nodes) (h1 : isRoot nodes r1) (h2 : isRoot nodes r2)
    (hne : r1 ≠ r2) (hr1 : 0 ≤ r1 ∧ r1 < N) (hr2 : 0 ≤ r2 ∧ r2 < N) :
    UFInv N (fusion nodes r1 r2) ∧
    (∀ a b : Int, 0 ≤ a → a < N → 0 ≤ b → b < N →
      (rootD N (fusion nodes r1 r2) a = rootD N (fusion nodes r1 r2) b ↔
        (rootD N nodes a = rootD N nodes b ∨
          ((rootD N nodes a = r1 ∨ rootD N nodes a = r2) ∧
            (rootD N nodes b = r1 ∨ rootD N nodes b = r2))))) := by
  rw [fusion_eq]
  split_ifs with hgt
  · obtain ⟨hI, hR⟩ := fusionGo_spec hInv h2 h1 (Ne.symm hne) hr2 hr1 (by omega)
    refine ⟨hI, ?_⟩
    intro a b ha1 ha2 hb1 hb2
    rw [hR a ⟨ha1, ha2⟩, hR b ⟨hb1, hb2⟩]
    rw [collapse_eq_iff r1 r2 (rootD N nodes a) (rootD N nodes b) hne]
  · obtain ⟨hI, hR⟩ := fusionGo_spec hInv h1 h2 hne hr1 hr2 (by omega)
    refine ⟨hI, ?_⟩
    intro a b ha1 ha2 hb1 hb2
    rw [hR a ⟨ha1, ha2⟩, hR b ⟨hb1, hb2⟩]
    rw [collapse_eq_iff r2 r1 (rootD N nodes a) (rootD N nodes b) (Ne.symm hne)]
    constructor
    · rintro (h | ⟨hx, hy⟩)
      · exact Or.inl h
      · exact Or.inr ⟨by tauto, by tauto⟩
    · rintro (h | ⟨hx, hy⟩)
      · exact Or.inl h
      · exact Or.inr ⟨by tauto, by tauto⟩

/-- Reference class assignment after merging the classes of `x` and `y`:
everything in `x`'s class moves to `y`'s class. -/
def mergePi (pi : Int → Int) (x y : Int) : Int → Int :=
  fun v => if pi v = pi x then pi y else pi v

/-- Reference model of the `union_find` loop, carrying only a class
assignment `pi` in place of the father/rank forest: an edge is emitted
exactly when its endpoints lie in distinct classes at the moment it is
processed (and fewer than `N - 1` edges have been emitted), and the two
classes are then merged. -/
def kruskal_ref (N : Nat) : List Edge → (Int → Int) → List Edge → List Edge
  | [], _, acc => acc
  | e :: rest, pi, acc =>
    if acc.length < N - 1 then
      if pi e.i = pi e.j then kruskal_ref N rest pi acc
      else kruskal_ref N rest (mergePi pi e.i e.j) (acc ++ [e])
    else acc

theorem union_find_go_refines {N : Nat} :
    ∀ (l : List Edge) (nodes : Int → Node) (pi : Int → Int) (acc : List Edge),
    UFInv N nodes →
    (∀ e ∈ l, 0 ≤ e.i ∧ e.i < (N : Int) ∧ 0 ≤ e.j ∧ e.j < (N : Int)) →
    (∀ a b : Int, 0 ≤ a → a < N → 0 ≤ b → b < N →
      (rootD N nodes a = rootD N nodes b ↔ pi a = pi b)) →
    union_find_go N l nodes acc = kruskal_ref N l pi acc := by
  intro l
  induction l with
  | nil => intro nodes pi acc _ _ _; rfl
  | cons e rest ih =>
    intro nodes pi acc hInv hmem hbr
    obtain ⟨hei1, hei2, hej1, hej2⟩ := hmem e (List.mem_cons_self e rest)
    have hu : union_find_go N (e :: rest) nodes acc =
        if acc.length < N - 1 then
          (if (find N nodes e.i).2 ≠ (find N (find N nodes e.i).1 e.j).2 then
            union_find_go N rest
              (fusion (find N (find N nodes e.i).1 e.j).1 (find N nodes e.i).2
                (find N (find N nodes e.i).1 e.j).2) (acc ++ [e])
          else union_find_go N rest (find N (find N nodes e.i).1 e.j).1 acc)
        else acc := rfl
    have hk : kruskal_ref N (e :: rest) pi acc =
        if acc.length < N - 1 then
          (if pi e.i = pi e.j then kruskal_ref N rest pi acc
          else kruskal_ref N rest (mergePi pi e.i e.j) (acc ++ [e]))
        else acc := rfl
    rw [hu, hk]
    by_cases hlen : acc.length < N - 1
    · rw [if_pos hlen, if_pos hlen]
      obtain ⟨f1r, f1Inv, f1roots, f1rootD⟩ := find_N hInv ⟨hei1, hei2⟩
      obtain ⟨f2r, f2Inv, f2roots, f2rootD⟩ := find_N f1Inv ⟨hej1, hej2⟩
      have hmemrest : ∀ e' ∈ rest, 0 ≤ e'.i ∧ e'.i < (N : Int) ∧ 0 ≤ e'.j ∧ e'.j < (N : Int) :=
        fun e' he' => hmem e' (List.mem_cons_of_mem _ he')
      have hr2 : (find N (find N nodes e.i).1 e.j).2 = rootD N nodes e.j := by
        rw [f2r]
        exact f1rootD e.j (Or.inl ⟨hej1, hej2⟩)
      have hpres : ∀ w : Int, 0 ≤ w ∧ w < (N : Int) →
          rootD N (find N (find N nodes e.i).1 e.j).1 w = rootD N nodes w := by
        intro w hw
        rw [f2rootD w (Or.inl hw), f1rootD w (Or.inl hw)]
      have hcond : ((find N nodes e.i).2 ≠ (find N (find N nodes e.i).1 e.j).2) ↔
          ¬ (pi e.i = pi e.j) := by
        rw [f1r, hr2]
        exact not_congr (hbr e.i e.j hei1 hei2 hej1 hej2)
      by_cases hpi : pi e.i = pi e.j
      · have hcc : ¬ ((find N nodes e.i).2 ≠ (find N (find N nodes e.i).1 e.j).2) := by
          rw [hcond]
          exact not_not_intro hpi
        rw [if_neg hcc, if_pos hpi]
        refine ih _ pi acc f2Inv hmemrest ?_
        intro a b ha1 ha2 hb1 hb2
        rw [hpres a ⟨ha1, ha2⟩, hpres b ⟨hb1, hb2⟩]
        exact hbr a b ha1 ha2 hb1 hb2
      · have hcc : (find N nodes e.i).2 ≠ (find N (find N nodes e.i).1 e.j).2 :=
          hcond.mpr hpi
        rw [if_pos hcc, if_neg hpi]
        have hri : isRoot (find N (find N nodes e.i).1 e.j).1 (rootD N nodes e.i) :=
          (f2roots _).mpr ((f1roots _).mpr (rootD_isRoot hInv (Or.inl ⟨hei1, hei2⟩)))
        have hrj : isRoot (find N (find N nodes e.i).1 e.j).1 (rootD N nodes e.j) :=
          (f2roots _).mpr ((f1roots _).mpr (rootD_isRoot hInv (Or.inl ⟨hej1, hej2⟩)))
        have hrange_i := rootD_inRange hInv ⟨hei1, hei2⟩
        have hrange_j := rootD_inRange hInv ⟨hej1, hej2⟩
        have hnrr : rootD N nodes e.i ≠ rootD N nodes e.j := by
          rw [f1r, hr2] at hcc
          exact hcc
        obtain ⟨fuInv, fuIff⟩ := fusion_spec f2Inv hri hrj hnrr hrange_i hrange_j
        rw [f1r, hr2]
        refine ih _ (mergePi pi e.i e.j) (acc ++ [e]) fuInv hmemrest ?_
        intro a b ha1 ha2 hb1 hb2
        rw [fuIff a b ha1 ha2 hb1 hb2]
        rw [hpres a ⟨ha1, ha2⟩, hpres b ⟨hb1, hb2⟩]
        rw [hbr a b ha1 ha2 hb1 hb2, hbr a e.i ha1 ha2 hei1 hei2,
          hbr a e.j ha1 ha2 hej1 hej2, hbr b e.i hb1 hb2 hei1 hei2,
          hbr b e.j hb1 hb2 hej1 hej2]
        simp only [mergePi]
        rw [collapse_eq_iff (pi e.j) (pi e.i) (pi a) (pi b) (Ne.symm hpi)]
        tauto
    · rw [if_neg hlen, if_neg hlen]

theorem union_find_go_len {N : Nat} :
    ∀ (l : List Edge) (nodes : Int → Node) (acc : List Edge),
    acc.length ≤ N - 1 → (union_find_go N l nodes acc).length ≤ N - 1 := by
  intro l
  induction l with
  | nil => intro nodes acc h; exact h
  | cons e rest ih =>
    intro nodes acc h
    have hu : union_find_go N (e :: rest) nodes acc =
        if acc.length < N - 1 then
          (if (find N nodes e.i).2 ≠ (find N (find N nodes e.i).1 e.j).2 then
            union_find_go N rest
              (fusion (find N (find N nodes e.i).1 e.j).1 (find N nodes e.i).2
                (find N (find N nodes e.i).1 e.j).2) (acc ++ [e])
          else union_find_go N rest (find N (find N nodes e.i).1 e.j).1 acc)
        else acc := rfl
    rw [hu]
    split_ifs with hlen hne
    · exact ih _ (acc ++ [e]) (by simp; omega)
    · exact ih _ _ h
    · exact h

theorem union_find_go_append {N : Nat} :
    ∀ (l : List Edge) (nodes : Int → Node) (acc : List Edge),
    ∃ t, union_find_go N l nodes acc = acc ++ t ∧ t.Sublist l := by
  intro l
  induction l with
  | nil => intro nodes acc; exact ⟨[], by simp [union_find_go]⟩
  | cons e rest ih =>
    intro nodes acc
    have hu : union_find_go N (e :: rest) nodes acc =
        if acc.length < N - 1 then
          (if (find N nodes e.i).2 ≠ (find N (find N nodes e.i).1 e.j).2 then
            union_find_go N rest
              (fusion (find N (find N nodes e.i).1 e.j).1 (find N nodes e.i).2
                (find N (find N nodes e.i).1 e.j).2) (acc ++ [e])
          else union_find_go N rest (find N (find N nodes e.i).1 e.j).1 acc)
        else acc := rfl
    rw [hu]
    split_ifs with hlen hne
    · obtain ⟨t, ht, hs⟩ := ih (fusion (find N (find N nodes e.i).1 e.j).1
        (find N nodes e.i).2 (find N (find N nodes e.i).1 e.j).2) (acc ++ [e])
      exact ⟨e :: t, by rw [ht]; simp, List.Sublist.cons₂ e hs⟩
    · obtain ⟨t, ht, hs⟩ := ih (find N (find N nodes e.i).1 e.j).1 acc
      exact ⟨t, ht, List.Sublist.cons e hs⟩
    · exact ⟨[], by simp⟩

theorem init_edge_fields (i j w : Int) :
    ((init_edge i j w).i = i ∧ (init_edge i j w).j = j ∨
      (init_edge i j w).i = j ∧ (init_edge i j w).j = i) ∧
    (init_edge i j w).i ≤ (init_edge i j w).j ∧ (init_edge i j w).w = w := by
  unfold init_edge
  split_ifs <;> simp <;> omega

theorem create_edges_mem {N : Nat} {adj : Int → Int → Int} {e : Edge}
    (h : e ∈ create_edges N adj) :
    ∃ i j : Nat, i < N ∧ j < N ∧ i ≤ j ∧ adj i j ≠ 0 ∧
      e = init_edge i j (adj i j) := by
  simp only [create_edges, List.mem_flatMap, List.mem_filterMap, List.mem_range] at h
  obtain ⟨i, hi, j, hj, hcond⟩ := h
  split_ifs at hcond with hc
  exact ⟨i, j, hi, hj, hc.1, hc.2, (Option.some.inj hcond).symm⟩

theorem create_edges_bounds {N : Nat} {adj : Int → Int → Int} :
    ∀ e ∈ create_edges N adj,
      0 ≤ e.i ∧ e.i < (N : Int) ∧ 0 ≤ e.j ∧ e.j < (N : Int) := by
  intro e he
  obtain ⟨i, j, hi, hj, _, _, heq⟩ := create_edges_mem he
  obtain ⟨hcase, _, _⟩ := init_edge_fields (i : Int) (j : Int) (adj i j)
  subst heq
  rcases hcase with ⟨h1, h2⟩ | ⟨h1, h2⟩ <;> rw [h1, h2] <;> omega

/-- `C3`: `union_find` emits, in input order, exactly those edges whose two
endpoints have distinct roots — equivalently, lie in distinct classes of
the partition built from the previously emitted edges — at the moment the
edge is processed (`kruskal_ref` is that selection rule, stated over a bare
class assignment), stops emitting once `N - 1` edges have been emitted, and
returns at most `N - 1` edges. -/
theorem C3_union_find_emits_by_roots (edges : List Edge) (N : Nat)
    (h : ∀ e ∈ edges, 0 ≤ e.i ∧ e.i < (N : Int) ∧ 0 ≤ e.j ∧ e.j < (N : Int)) :
    union_find edges N = kruskal_ref N edges id [] ∧
    (union_find edges N).Sublist edges ∧
    (union_find edges N).length ≤ N - 1 := by
  refine ⟨?_, ?_, ?_⟩
  · exact union_find_go_refines edges create_nodes id []
      (UFInv_create_nodes N) h
      (fun a b _ _ _ _ => by rw [rootD_create_nodes, rootD_create_nodes]; exact Iff.rfl)
  · obtain ⟨t, ht, hs⟩ := @union_find_go_append N edges create_nodes []
    rw [union_find, ht]
    simpa using hs
  · exact union_find_go_len edges create_nodes [] (by simp)

/-- Witness for `C3` on a concrete three-edge graph. -/
theorem C3_union_find_emits_by_roots_witness :
    (∀ e ∈ ([⟨0, 1, 1⟩, ⟨1, 2, 2⟩, ⟨0, 2, 3⟩] : List Edge),
      0 ≤ e.i ∧ e.i < (3 : Int) ∧ 0 ≤ e.j ∧ e.j < (3 : Int)) ∧
    (union_find [⟨0, 1, 1⟩, ⟨1, 2, 2⟩, ⟨0, 2, 3⟩] 3 =
        kruskal_ref 3 [⟨0, 1, 1⟩, ⟨1, 2, 2⟩, ⟨0, 2, 3⟩] id [] ∧
      (union_find [⟨0, 1, 1⟩, ⟨1, 2, 2⟩, ⟨0, 2, 3⟩] 3).Sublist
        [⟨0, 1, 1⟩, ⟨1, 2, 2⟩, ⟨0, 2, 3⟩] ∧
      (union_find [⟨0, 1, 1⟩, ⟨1, 2, 2⟩, ⟨0, 2, 3⟩] 3).length ≤ 3 - 1) :=
  ⟨by decide, C3_union_find_emits_by_roots _ 3 (by decide)⟩

/-!  Order facts about `edgeLe`, and what `qsort` produces.  Since
`cmp_edges a b = 0` forces `a = b`, a sorted permutation of a list is
unique, so `sortEdges` computes exactly the array `qsort` leaves. -/

theorem cmp_edges_le_iff {a b : Edge} :
    cmp_edges a b ≤ 0 ↔ edgeLt a b ∨ a = b := by
  constructor
  · intro h
    rcases lt_or_eq_of_le h with h' | h'
    · exact Or.inl (cmp_edges_lt_iff.mp h')
    · exact Or.inr (cmp_edges_eq_zero.mp h')
  · rintro (h | rfl)
    · exact le_of_lt (cmp_edges_lt_iff.mpr h)
    · rw [cmp_edges_eq_zero.mpr rfl]

theorem edgeLt_trans {a b c : Edge} (h1 : edgeLt a b) (h2 : edgeLt b c) :
    edgeLt a c := by
  rcases h1 with h1 | ⟨hw1, h1 | ⟨hi1, hj1⟩⟩ <;>
    rcases h2 with h2 | ⟨hw2, h2 | ⟨hi2, hj2⟩⟩ <;>
    unfold edgeLt <;> omega

instance : IsTotal Edge edgeLe :=
  ⟨fun a b => by
    unfold edgeLe
    have := cmp_edges_antisymm a b
    omega⟩

instance : IsTrans Edge edgeLe :=
  ⟨fun a b c hab hbc => by
    rw [edgeLe, cmp_edges_le_iff] at hab hbc ⊢
    rcases hab with hab | rfl
    · rcases hbc with hbc | rfl
      · exact Or.inl (edgeLt_trans hab hbc)
      · exact Or.inl hab
    · exact hbc⟩

instance : IsAntisymm Edge edgeLe :=
  ⟨fun a b hab hba => by
    rw [edgeLe] at hab hba
    have := cmp_edges_antisymm a b
    exact cmp_edges_eq_zero.mp (by omega)⟩

theorem sortEdges_sorted (l : List Edge) : List.Sorted edgeLe (sortEdges l) :=
  List.sorted_insertionSort edgeLe l

theorem sortEdges_perm (l : List Edge) : (sortEdges l).Perm l :=
  List.perm_insertionSort edgeLe l

/-- Sorted permutations are unique under the edge order, so any comparison
sort — in particular `qsort` — produces `sortEdges`. -/
theorem sortEdges_eq_of_sorted_perm {l l' : List Edge}
    (hp : l'.Perm l) (hs : List.Sorted edgeLe l') : l' = sortEdges l :=
  List.eq_of_perm_of_sorted (hp.trans (sortEdges_perm l).symm) hs (sortEdges_sorted l)

/-!  `C10`: the zero padding of the `sequential_kruskal` edge buffer. -/

theorem sorted_replicate_pad (n : Nat) :
    List.Sorted edgeLe (List.replicate n (⟨0, 0, 0⟩ : Edge)) := by
  induction n with
  | zero => simp
  | succ n ih =>
    rw [List.replicate_succ, List.sorted_cons]
    refine ⟨fun b hb => ?_, ih⟩
    rw [List.eq_of_mem_replicate hb]
    decide

/-- Every edge emitted by the reference selection was in the input or the
accumulator, and freshly emitted edges have distinct endpoints. -/
theorem kruskal_ref_mem {N : Nat} :
    ∀ (l : List Edge) (pi : Int → Int) (acc : List Edge) (e : Edge),
    e ∈ kruskal_ref N l pi acc → e ∈ acc ∨ (e ∈ l ∧ e.i ≠ e.j) := by
  intro l
  induction l with
  | nil => intro pi acc e he; exact Or.inl he
  | cons x rest ih =>
    intro pi acc e he
    have hk : kruskal_ref N (x :: rest) pi acc =
        if acc.length < N - 1 then
          (if pi x.i = pi x.j then kruskal_ref N rest pi acc
          else kruskal_ref N rest (mergePi pi x.i x.j) (acc ++ [x]))
        else acc := rfl
    rw [hk] at he
    split_ifs at he with hlen hpi
    · rcases ih pi acc e he with h | ⟨h1, h2⟩
      · exact Or.inl h
      · exact Or.inr ⟨List.mem_cons_of_mem _ h1, h2⟩
    · rcases ih (mergePi pi x.i x.j) (acc ++ [x]) e he with h | ⟨h1, h2⟩
      · rcases List.mem_append.mp h with h | h
        · exact Or.inl h
        · have hex : e = x := by simpa using h
          subst hex
          exact Or.inr ⟨List.mem_cons_self e rest, fun hc => hpi (by rw [hc])⟩
      · exact Or.inr ⟨List.mem_cons_of_mem _ h1, h2⟩
    · exact Or.inl he

theorem union_find_zero (l : List Edge) : union_find l 0 = [] := by
  cases l <;> rfl

/-- `C10`: `sequential_kruskal` sorts the whole `calloc`ed buffer of `M`
entries; when the true edge count is at most `M`, the surplus entries are
the zero edge `(0, 0, 0)`, which sorts to the front (weights are positive
on genuine edges) and is never emitted (its endpoints coincide, hence share
a root), so the output tree contains only genuine graph edges. -/
theorem C10_sequential_kruskal_padding (N M : Nat) (adj : Int → Int → Int)
    (hM : (create_edges N adj).length ≤ M)
    (hadj : ∀ i j : Int, 0 ≤ adj i j) :
    sortEdges (create_edges N adj ++
        List.replicate (M - (create_edges N adj).length) ⟨0, 0, 0⟩) =
      List.replicate (M - (create_edges N adj).length) ⟨0, 0, 0⟩ ++
        sortEdges (create_edges N adj) ∧
    ∀ e ∈ sequential_kruskal N M adj, e ∈ create_edges N adj := by
  have hwpos : ∀ e ∈ create_edges N adj, 1 ≤ e.w := by
    intro e he
    obtain ⟨i, j, _, _, _, hnz, heq⟩ := create_edges_mem he
    obtain ⟨_, _, hw⟩ := init_edge_fields (i : Int) (j : Int) (adj i j)
    rw [heq, hw]
    have := hadj i j
    omega
  have hfront : sortEdges (create_edges N adj ++
      List.replicate (M - (create_edges N adj).length) ⟨0, 0, 0⟩) =
      List.replicate (M - (create_edges N adj).length) ⟨0, 0, 0⟩ ++
        sortEdges (create_edges N adj) := by
    refine (sortEdges_eq_of_sorted_perm ?_ ?_).symm
    · exact List.perm_append_comm.trans ((sortEdges_perm _).append_right _)
    · rw [List.Sorted, List.pairwise_append]
      refine ⟨sorted_replicate_pad _, sortEdges_sorted _, ?_⟩
      intro a ha b hb
      rw [List.eq_of_mem_replicate ha]
      have hb' : b ∈ create_edges N adj := (sortEdges_perm _).mem_iff.mp hb
      have h1 := hwpos b hb'
      show (if (0 : Int) ≠ b.w then (0 : Int) - b.w
        else if (0 : Int) ≠ b.i then (0 : Int) - b.i else (0 : Int) - b.j) ≤ 0
      split_ifs <;> omega
  refine ⟨hfront, ?_⟩
  intro e he
  cases N with
  | zero =>
    rw [show sequential_kruskal 0 M adj =
      union_find (sortEdges (create_edges 0 adj ++
        List.replicate (M - (create_edges 0 adj).length) ⟨0, 0, 0⟩)) 0 from rfl,
      union_find_zero] at he
    exact absurd he (List.not_mem_nil e)
  | succ N' =>
    have hL : ∀ e' ∈ sortEdges (create_edges (N' + 1) adj ++
        List.replicate (M - (create_edges (N' + 1) adj).length) ⟨0, 0, 0⟩),
        0 ≤ e'.i ∧ e'.i < ((N' + 1 : Nat) : Int) ∧ 0 ≤ e'.j ∧ e'.j < ((N' + 1 : Nat) : Int) := by
      intro e' he'
      have hmem := (sortEdges_perm _).mem_iff.mp he'
      rcases List.mem_append.mp hmem with h | h
      · exact create_edges_bounds e' h
      · rw [List.eq_of_mem_replicate h]
        refine ⟨le_refl 0, ?_, le_refl 0, ?_⟩ <;> positivity
    have hrefine := C3_union_find_emits_by_roots _ (N' + 1) hL
    have hseq : sequential_kruskal (N' + 1) M adj =
        union_find (sortEdges (create_edges (N' + 1) adj ++
          List.replicate (M - (create_edges (N' + 1) adj).length) ⟨0, 0, 0⟩))
          (N' + 1) := rfl
    rw [hseq, hrefine.1] at he
    rcases kruskal_ref_mem _ id [] e he with h | ⟨h1, h2⟩
    · exact absurd h (List.not_mem_nil e)
    · have hmem := (sortEdges_perm _).mem_iff.mp h1
      rcases List.mem_append.mp hmem with h | h
      · exact h
      · exact absurd (by rw [List.eq_of_mem_replicate h]) h2

/-- The concrete two-vertex adjacency matrix with the single edge
`0 – 1` of weight 5, used as input for witnesses and failing runs. -/
def adjK2 : Int → Int → Int := fun i j =>
  if (i = 0 ∧ j = 1) ∨ (i = 1 ∧ j = 0) then 5 else 0

/-- Witness for `C10` on the two-vertex graph with `M = 2` (one genuine
edge plus one zero pad). -/
theorem C10_sequential_kruskal_padding_witness :
    ((create_edges 2 adjK2).length ≤ 2 ∧ (∀ i j : Int, 0 ≤ adjK2 i j)) ∧
    (sortEdges (create_edges 2 adjK2 ++
        List.replicate (2 - (create_edges 2 adjK2).length) ⟨0, 0, 0⟩) =
      List.replicate (2 - (create_edges 2 adjK2).length) ⟨0, 0, 0⟩ ++
        sortEdges (create_edges 2 adjK2) ∧
    ∀ e ∈ sequential_kruskal 2 2 adjK2, e ∈ create_edges 2 adjK2) :=
  have hadj : ∀ i j : Int, 0 ≤ adjK2 i j := fun i j => by
    unfold adjK2; split_ifs <;> omega
  ⟨⟨by decide, hadj⟩, C10_sequential_kruskal_padding 2 2 adjK2 (by decide) hadj⟩

/-!  Parallel Kruskal (`add_local_edges`, `create_forest`,
`add_edges_from_submatrix`, `merge_sorted_lists`, and the per-step
communication schedule of `parallel_kruskal`).

The harness that provides the adjacency matrix is not part of `src/`; per
the spec it hands every rank the same full broadcast matrix
`adj[0..N-1][0..N-1]` ("input is replicated").  `adj i j` below is that
full matrix, row-major entry `adj[i*N + j]`.  The C code indexes it with
`i` a *block-local* row index (`adj[i*N + j]` where the global row is
`procRank*nbRows + i`), which the model mirrors exactly.

`nbRows = ceil((float)N / numProcs)`; the float computation is exact for
all representable sizes, modelled as Nat ceiling division.

The C `break` when `real_i ≥ N` is modelled as a per-row guard, equivalent
because `real_i` increases with the loop index. -/

def add_local_edges (procRank : Nat) (adj : Int → Int → Int) (nbRows N : Nat) :
    List Edge :=
  (List.range nbRows).flatMap (fun i =>
    if procRank * nbRows + i ≥ N then []
    else
      (List.range (i + 1)).filterMap (fun k =>
        if adj i (procRank * nbRows + k) ≠ 0 then
          some (init_edge (procRank * nbRows + i) (procRank * nbRows + k)
            (adj i (procRank * nbRows + k)))
        else none))

def create_forest (procRank : Nat) (adj : Int → Int → Int) (nbRows N : Nat) :
    List Edge :=
  union_find (sortEdges (add_local_edges procRank adj nbRows N)) N

def add_edges_from_submatrix (procRank stepSize : Nat) (adj : Int → Int → Int)
    (nbRows N : Nat) : List Edge :=
  (List.range nbRows).flatMap (fun i =>
    if procRank * nbRows + i ≥ N then []
    else
      (List.range (nbRows * stepSize)).filterMap (fun k =>
        if adj i (((procRank : Int) - (procRank : Int) % stepSize - stepSize) * nbRows + k) ≠ 0 then
          some (init_edge (procRank * nbRows + i)
            (((procRank : Int) - (procRank : Int) % stepSize - stepSize) * nbRows + k)
            (adj i (((procRank : Int) - (procRank : Int) % stepSize - stepSize) * nbRows + k)))
        else none))

/-- The forest `send_bipartite_forest` computes and sends. -/
def bipartite_forest (procRank stepSize : Nat) (adj : Int → Int → Int)
    (nbRows N : Nat) : List Edge :=
  union_find (sortEdges (add_edges_from_submatrix procRank stepSize adj nbRows N)) N

/-- Structural core of the two-way merge: the fuel is the total number of
elements left, which drops by exactly one per emitted element, so the
zero-fuel branch is unreachable from `merge_sorted_lists`. -/
def mergeGo : Nat → List Edge → List Edge → List Edge
  | 0, li, lj => li ++ lj
  | _+1, [], lj => lj
  | _+1, a :: li, [] => a :: li
  | fuel+1, a :: li, b :: lj =>
    if cmp_edges a b < 0 then a :: mergeGo fuel li (b :: lj)
    else b :: mergeGo fuel (a :: li) lj

/-- `merge_sorted_lists`: two-way merge taking from the left exactly when
`cmp_edges` is strictly negative (so equal keys come from the right
first; keys tie only on identical edges, making that order immaterial). -/
def merge_sorted_lists (li lj : List Edge) : List Edge :=
  mergeGo (li.length + lj.length) li lj

/-- What a receiver accumulates in one step: `receive_forest` (the peer
group leader's forest, empty when that rank does not exist), then
`receive_edges` (one bipartite forest per existing sender in the peer
group, each merged in as the right operand), and finally `merge_into`
with its own forest as the left operand. -/
def receive_merge (procRank numProcs stepSize : Nat) (adj : Int → Int → Int)
    (nbRows N : Nat) (forests : List (List Edge)) (ownForest : List Edge) :
    List Edge :=
  let leader := if procRank + stepSize < numProcs
    then forests.getD (procRank + stepSize) [] else []
  let merged := (List.range stepSize).foldl (fun acc i =>
    if procRank + stepSize + i ≥ numProcs then acc
    else merge_sorted_lists acc
      (bipartite_forest (procRank + stepSize + i) stepSize adj nbRows N)) leader
  merge_sorted_lists ownForest merged

/-- One step of the hypercube schedule, executed simultaneously by all
ranks.  The bit the C code extracts by halving its `rank` copy each round
is `(procRank / stepSize) % 2` (equal to `(procRank >> k) & 1` with
`stepSize = 2^k`).  A rank with bit 1 sends (its forest if it is the group
leader, and its bipartite forest) and clears its sticky `receiver` flag; a
rank with bit 0 that is still a receiver gathers and rebuilds its forest
through `union_find`; every other rank is idle. -/
def kruskal_step (numProcs stepSize : Nat) (adj : Int → Int → Int)
    (nbRows N : Nat) (st : List (List Edge × Bool)) : List (List Edge × Bool) :=
  (List.range numProcs).map (fun r =>
    let cur := st.getD r ([], true)
    if (r / stepSize) % 2 = 1 then (cur.1, false)
    else if cur.2 then
      (union_find (receive_merge r numProcs stepSize adj nbRows N
        (st.map Prod.fst) cur.1) N, true)
    else cur)

/-- The step loop `for (stepSize = 1; stepSize*nbRows < N; stepSize <<= 1)`
with explicit fuel (the step size doubles, so `N + 1` rounds always
suffice to exit the loop whenever `nbRows ≥ 1`). -/
def kruskal_rounds (numProcs : Nat) (adj : Int → Int → Int) (nbRows N : Nat) :
    Nat → Nat → List (List Edge × Bool) → List (List Edge × Bool)
  | 0, _, st => st
  | fuel+1, stepSize, st =>
    if stepSize * nbRows < N then
      kruskal_rounds numProcs adj nbRows N fuel (stepSize * 2)
        (kruskal_step numProcs stepSize adj nbRows N st)
    else st

/-- `parallel_kruskal`, replayed over the deterministic schedule: the
forest held by rank 0 at the end (what it `memcpy`s into the output tree). -/
def parallel_kruskal (numProcs : Nat) (adj : Int → Int → Int) (N M : Nat) :
    List Edge :=
  ((kruskal_rounds numProcs adj ((N + numProcs - 1) / numProcs) N (N + 1) 1
      ((List.range numProcs).map
        (fun r => (create_forest r adj ((N + numProcs - 1) / numProcs) N, true)))).getD
    0 ([], true)).1

/-- The `N - 1` lines `print_tree` emits from the `calloc`ed tree buffer of
`computeMST` after the algorithm wrote its edges into a leading portion:
each line is the pair `(i, j)` of one buffer entry, unwritten entries
being the zero edge. -/
def print_tree_output (tree : List Edge) (n : Nat) : List (Int × Int) :=
  ((tree ++ List.replicate (n - tree.length) (⟨0, 0, 0⟩ : Edge)).take n).map
    (fun e => (e.i, e.j))

/-- Rank-0 output of `computeMST` for `kruskal-par`. -/
def computeMST_kruskal_par_lines (numProcs N M : Nat) (adj : Int → Int → Int) :
    List (Int × Int) :=
  print_tree_output (parallel_kruskal numProcs adj N M) (N - 1)

/-- Rank-0 output of `computeMST` for `kruskal-seq`. -/
def computeMST_kruskal_seq_lines (N M : Nat) (adj : Int → Int → Int) :
    List (Int × Int) :=
  print_tree_output (sequential_kruskal N M adj) (N - 1)

/-- One undirected step along a non-zero adjacency entry. -/
def adjRel (N : Nat) (adj : Int → Int → Int) (a b : Int) : Prop :=
  0 ≤ a ∧ a < N ∧ 0 ≤ b ∧ b < N ∧ adj a b ≠ 0

/-- Connectivity of the input graph: every pair of vertices is joined by a
path of non-zero adjacency entries. -/
def Connected (N : Nat) (adj : Int → Int → Int) : Prop :=
  ∀ a b : Int, 0 ≤ a → a < N → 0 ≤ b → b < N →
    Relation.ReflTransGen (adjRel N adj) a b

theorem adjK2_connected : Connected 2 adjK2 := by
  have h01 : adjRel 2 adjK2 0 1 := by
    refine ⟨le_refl 0, by omega, by omega, by omega, ?_⟩
    unfold adjK2
    norm_num
  have h10 : adjRel 2 adjK2 1 0 := by
    refine ⟨by omega, by omega, le_refl 0, by omega, ?_⟩
    unfold adjK2
    norm_num
  intro a b ha1 ha2 hb1 hb2
  have ha : a = 0 ∨ a = 1 := by omega
  have hb : b = 0 ∨ b = 1 := by omega
  rcases ha with rfl | rfl <;> rcases hb with rfl | rfl
  · exact Relation.ReflTransGen.refl
  · exact Relation.ReflTransGen.single h01
  · exact Relation.ReflTransGen.single h10
  · exact Relation.ReflTransGen.refl

/-- Modelled from the claim (`C4`): the edges of rank `r`'s on-diagonal
block — the non-zero entries `adj[u][v]` with both endpoints inside
`[r*nbRows, min((r+1)*nbRows, N))` and `v ≤ u`, with their true weights. -/
def claimed_local_edges (procRank : Nat) (adj : Int → Int → Int)
    (nbRows N : Nat) : List Edge :=
  (List.range nbRows).flatMap (fun i =>
    if procRank * nbRows + i ≥ N then []
    else
      (List.range (i + 1)).filterMap (fun k =>
        if adj (procRank * nbRows + i) (procRank * nbRows + k) ≠ 0 then
          some (init_edge (procRank * nbRows + i) (procRank * nbRows + k)
            (adj (procRank * nbRows + i) (procRank * nbRows + k)))
        else none))

/-- `C4` (code bug): with the spec's replicated full matrix, on rank 1 of a
two-rank run over the single-edge graph `0 – 1`, `add_local_edges` reads
`adj[i*N + j]` with the *local* row index `i`, hence reads `adj[0][1] = 5`
instead of the block entry `adj[1][1] = 0` and fabricates the self-loop
`(1, 1, 5)`; the claim's enumeration of the block's true non-zero entries
is empty there. -/
theorem C4_add_local_edges_reads_local_row :
    add_local_edges 1 adjK2 1 2 = [⟨1, 1, 5⟩] ∧
    claimed_local_edges 1 adjK2 1 2 = [] ∧
    add_local_edges 1 adjK2 1 2 ≠ claimed_local_edges 1 adjK2 1 2 := by
  refine ⟨?_, ?_, ?_⟩ <;> decide

/-- `C1` (code bug): on the connected two-vertex graph with the single
edge `0 – 1` of weight 5, a two-process `kruskal-par` run leaves rank 0
with an empty forest (each rank's block enumeration reads the wrong rows
of the replicated matrix), so rank 0 prints the zero-padded line `0 0`,
while `kruskal-seq` on the same input prints `0 1`: the rank-0 output is
not independent of `P`. -/
theorem C1_parallel_kruskal_ne_sequential :
    Connected 2 adjK2 ∧
    computeMST_kruskal_par_lines 2 2 1 adjK2 = [(0, 0)] ∧
    computeMST_kruskal_seq_lines 2 1 adjK2 = [(0, 1)] ∧
    computeMST_kruskal_par_lines 2 2 1 adjK2 ≠ computeMST_kruskal_seq_lines 2 1 adjK2 :=
  ⟨adjK2_connected, by decide, by decide, by decide⟩

/-!  Parallel Prim: per-rank border array, the per-iteration candidate each
rank gathers to rank 0, and rank 0's selection (`select_new_vertex`).
As in parallel Kruskal, `adj` is the spec's replicated full matrix and the
C code indexes it with block-local row indices (`adj[y*N + ...]`). -/

/-- `struct BorderNode`: best known connecting weight `w` (0 = none) and
the in-tree endpoint `z` for one local row. -/
structure BorderNode where
  w : Int
  z : Int
deriving DecidableEq, Repr

/-- `create_border`: vertex 0 is marked visited, and local row `y` starts
with candidate `(adj[y*N + 0], 0)`; rows whose global vertex is out of
range keep their `calloc` zeros (the C loop breaks there). -/
def create_border (procRank nbRows N : Nat) (adj : Int → Int → Int) :
    List BorderNode :=
  (List.range nbRows).map (fun y =>
    if procRank * nbRows + y ≥ N then ⟨0, 0⟩
    else ⟨adj y 0, 0⟩)

/-- `find_closest_border`: scan the border for the unvisited local row with
the smallest candidate edge under `cmp_edges`, skipping `w == 0` entries;
`-1` when none qualifies.  The C `smallest` variable is uninitialized
until `yOpt` is set and never read before (the `||` short-circuits), so
the dummy initial edge below is never consulted. -/
def find_closest_border (procRank : Nat) (border : List BorderNode)
    (isVisited : Int → Bool) (N nbRows : Nat) : Int :=
  ((List.range nbRows).foldl (fun st y =>
    if procRank * nbRows + y ≥ N then st
    else if isVisited (procRank * nbRows + y) then st
    else if (border.getD y ⟨0, 0⟩).w ≠ 0 ∧
        (st.1 = -1 ∨
          cmp_edges st.2 (init_edge (procRank * nbRows + y)
            (border.getD y ⟨0, 0⟩).z (border.getD y ⟨0, 0⟩).w) > 0) then
      ((y : Int), init_edge (procRank * nbRows + y) (border.getD y ⟨0, 0⟩).z
        (border.getD y ⟨0, 0⟩).w)
    else st) ((-1 : Int), (⟨0, 0, 0⟩ : Edge))).1

/-- The 3-int candidate `send_edge` contributes to the gather: the sentinel
(`edge[0] = -1`, other two ints left uninitialized and never read) when
the rank found no candidate, else `(y + procRank*nbRows, z, w)`. -/
def prim_candidate (procRank nbRows : Nat) (border : List BorderNode)
    (y : Int) : Option (Int × Int × Int) :=
  if y = -1 then none
  else some (y + procRank * nbRows,
    (border.getD y.toNat ⟨0, 0⟩).z, (border.getD y.toNat ⟨0, 0⟩).w)

/-- `select_new_vertex` on rank 0: fold over the gathered candidates,
skipping sentinels, keeping the smallest under `cmp_edges`; returns the
chosen `edge[0]` — or `-1` when every candidate was a sentinel, in which
case the C `assert(idSmallestVertex != -1)` fires. -/
def select_new_vertex (cands : List (Option (Int × Int × Int))) : Int :=
  (cands.foldl (fun st c =>
    match c with
    | none => st
    | some (e0, e1, e2) =>
      if st.1 = -1 ∨ cmp_edges st.2 (init_edge e0 e1 e2) > 0 then
        (e0, init_edge e0 e1 e2)
      else st) ((-1 : Int), (⟨0, 0, 0⟩ : Edge))).1

/-- The candidates gathered to rank 0 in the first of the `N - 1`
iterations of `parallel_prim` (visited = {0}, borders fresh from
`create_border`). -/
def prim_first_candidates (numProcs N nbRows : Nat) (adj : Int → Int → Int) :
    List (Option (Int × Int × Int)) :=
  (List.range numProcs).map (fun r =>
    prim_candidate r nbRows (create_border r nbRows N adj)
      (find_closest_border r (create_border r nbRows N adj)
        (fun v : Int => decide (v = 0)) N nbRows))

/-- `C5` (code bug): on the connected two-vertex graph `0 – 1` (weight 5)
with `P = 2`, `create_border` on rank 1 reads `adj[y*N + 0]` with the
*local* row `y = 0`, storing weight `adj[0][0] = 0` instead of
`adj[1][0] = 5`; in the first iteration both ranks then gather the
sentinel, `select_new_vertex` ends with `idSmallestVertex = -1`, and the
assertion fires on a connected input. -/
theorem C5_parallel_prim_assertion_fails_on_connected :
    Connected 2 adjK2 ∧
    select_new_vertex (prim_first_candidates 2 2 1 adjK2) = -1 :=
  ⟨adjK2_connected, by decide⟩

/-!  MPI wire codec for edge lists (`send_edges_to` / `receive_edges_from`).
Both messages go to one peer on tag 0: a 1-int count, then a flat buffer
of `3 * count` ints `[i, j, w, …]` in the sender's order.  The model keeps
the two message payloads as a pair. -/

/-- The wire encoding `send_edges_to` transmits: the count message and the
flat payload. -/
def send_edges_to (edges : List Edge) : Nat × List Int :=
  (edges.length, edges.flatMap (fun e => [e.i, e.j, e.w]))

/-- The edge list `receive_edges_from` reconstructs from a received count
and payload: entry `k` reads ints `3k, 3k+1, 3k+2`. -/
def receive_edges_from (nbEdges : Nat) (buf : List Int) : List Edge :=
  (List.range nbEdges).map (fun k =>
    ⟨buf.getD (k * 3) 0, buf.getD (k * 3 + 1) 0, buf.getD (k * 3 + 2) 0⟩)

/-- `C8`: the edge wire codec round-trips — decoding what `send_edges_to`
encodes yields the same count and the same edge sequence, fields intact,
in the sender's order. -/
theorem C8_codec_roundtrip (edges : List Edge) :
    (send_edges_to edges).1 = edges.length ∧
    receive_edges_from (send_edges_to edges).1 (send_edges_to edges).2 = edges := by
  refine ⟨rfl, ?_⟩
  induction edges with
  | nil => rfl
  | cons e rest ih =>
    show (List.range (rest.length + 1)).map (fun k =>
      (⟨(e.i :: e.j :: e.w :: rest.flatMap (fun e' => [e'.i, e'.j, e'.w])).getD (k * 3) 0,
        (e.i :: e.j :: e.w :: rest.flatMap (fun e' => [e'.i, e'.j, e'.w])).getD (k * 3 + 1) 0,
        (e.i :: e.j :: e.w :: rest.flatMap (fun e' => [e'.i, e'.j, e'.w])).getD (k * 3 + 2) 0⟩ : Edge))
      = e :: rest
    rw [List.range_succ_eq_map, List.map_cons, List.map_map]
    congr 1
    have hcg : List.map ((fun k =>
        (⟨(e.i :: e.j :: e.w :: rest.flatMap (fun e' => [e'.i, e'.j, e'.w])).getD (k * 3) 0,
          (e.i :: e.j :: e.w :: rest.flatMap (fun e' => [e'.i, e'.j, e'.w])).getD (k * 3 + 1) 0,
          (e.i :: e.j :: e.w :: rest.flatMap (fun e' => [e'.i, e'.j, e'.w])).getD (k * 3 + 2) 0⟩ : Edge)) ∘ Nat.succ)
        (List.range rest.length) =
        List.map (fun k =>
        (⟨(rest.flatMap (fun e' => [e'.i, e'.j, e'.w])).getD (k * 3) 0,
          (rest.flatMap (fun e' => [e'.i, e'.j, e'.w])).getD (k * 3 + 1) 0,
          (rest.flatMap (fun e' => [e'.i, e'.j, e'.w])).getD (k * 3 + 2) 0⟩ : Edge))
        (List.range rest.length) := by
      refine List.map_congr_left ?_
      intro k _
      show (⟨(e.i :: e.j :: e.w :: rest.flatMap (fun e' => [e'.i, e'.j, e'.w])).getD ((k + 1) * 3) 0,
        (e.i :: e.j :: e.w :: rest.flatMap (fun e' => [e'.i, e'.j, e'.w])).getD ((k + 1) * 3 + 1) 0,
        (e.i :: e.j :: e.w :: rest.flatMap (fun e' => [e'.i, e'.j, e'.w])).getD ((k + 1) * 3 + 2) 0⟩ : Edge) = _
      have e1 : (k + 1) * 3 = k * 3 + 3 := by ring
      have e2 : (k + 1) * 3 + 1 = (k * 3 + 1) + 3 := by ring
      have e3 : (k + 1) * 3 + 2 = (k * 3 + 2) + 3 := by ring
      rw [e3, e2, e1]
      rfl
    rw [hcg]
    exact ih

/-!  `computeMST` dispatch (rank 0's view): which configurations print an
`ERROR:` diagnostic and abort the group, and which run an algorithm. -/

/-- Outcome of `computeMST`'s name dispatch as decided on rank 0: the
diagnostic line printed (if any), whether `MPI_Abort` is called, and which
algorithm body runs. -/
structure DispatchResult where
  diagnostic : Option String
  aborted : Bool
  algorithm : Option String
deriving DecidableEq, Repr

/-- The dispatch chain of `computeMST` (rank 0): sequential names demand a
single process, the two parallel names always run, anything else is
invalid.  Diagnostics render the C `printf` format with its argument. -/
def computeMST_dispatch (algoName : String) (numProcs : Nat) : DispatchResult :=
  if algoName = "prim-seq" then
    if numProcs ≠ 1 then
      ⟨some ("ERROR: Sequential algorithm is ran with " ++ toString numProcs ++
        " MPI processes.\n"), true, none⟩
    else ⟨none, false, some "prim-seq"⟩
  else if algoName = "kruskal-seq" then
    if numProcs ≠ 1 then
      ⟨some ("ERROR: Sequential algorithm is ran with " ++ toString numProcs ++
        " MPI processes.\n"), true, none⟩
    else ⟨none, false, some "kruskal-seq"⟩
  else if algoName = "prim-par" then ⟨none, false, some "prim-par"⟩
  else if algoName = "kruskal-par" then ⟨none, false, some "kruskal-par"⟩
  else ⟨some ("ERROR: Invalid algorithm name: " ++ algoName ++ ".\n"), true, none⟩

/-- `C9`: `computeMST` aborts exactly on misconfiguration — a sequential
name with `P ≠ 1`, or a name that is none of the four exact strings; the
single diagnostic line printed in those cases starts with `ERROR:`, no
diagnostic is printed otherwise, and in all other cases the selected
algorithm runs. -/
theorem C9_computeMST_dispatch_aborts_exactly_on_misconfig
    (algoName : String) (numProcs : Nat) :
    ((computeMST_dispatch algoName numProcs).aborted = true ↔
      (((algoName = "prim-seq" ∨ algoName = "kruskal-seq") ∧ numProcs ≠ 1) ∨
        (algoName ≠ "prim-seq" ∧ algoName ≠ "kruskal-seq" ∧
          algoName ≠ "prim-par" ∧ algoName ≠ "kruskal-par"))) ∧
    ((computeMST_dispatch algoName numProcs).diagnostic = none ↔
      (computeMST_dispatch algoName numProcs).aborted = false) ∧
    (∀ s, (computeMST_dispatch algoName numProcs).diagnostic = some s →
      ∃ t, s = "ERROR:" ++ t) ∧
    ((computeMST_dispatch algoName numProcs).aborted = false →
      (computeMST_dispatch algoName numProcs).algorithm = some algoName) := by
  have hsplit1 : "ERROR: Sequential algorithm is ran with " =
      "ERROR:" ++ " Sequential algorithm is ran with " := by decide
  have hsplit2 : "ERROR: Invalid algorithm name: " =
      "ERROR:" ++ " Invalid algorithm name: " := by decide
  unfold computeMST_dispatch
  split_ifs with h1 h2 h3 h4 h5 h6 <;>
    refine ⟨by simp_all, by simp_all, ?_, by simp_all⟩ <;> intro s hs <;>
    simp only [Option.some.injEq, reduceCtorEq] at hs
  · exact ⟨" Sequential algorithm is ran with " ++ (toString numProcs ++
      " MPI processes.\n"),
      by rw [← hs, hsplit1, String.append_assoc, String.append_assoc]⟩
  · exact ⟨" Sequential algorithm is ran with " ++ (toString numProcs ++
      " MPI processes.\n"),
      by rw [← hs, hsplit1, String.append_assoc, String.append_assoc]⟩
  · exact ⟨" Invalid algorithm name: " ++ (algoName ++ ".\n"),
      by rw [← hs, hsplit2, String.append_assoc, String.append_assoc]⟩

/-!  Binary min-heap of edges (`struct Heap`, `create_heap`, `add_edge`,
`extract_min`).  The backing array becomes a total function `Nat → Edge`;
slot 0 is unused (1-indexed), the occupied slots are `1 .. curEnd - 1`,
and `sizeMax` records the allocated capacity (`nbMaxEdges + 1` slots). -/

structure Heap where
  sizeMax : Nat
  curEnd : Nat
  data : Nat → Edge

def create_heap (nbMaxEdges : Nat) : Heap :=
  ⟨nbMaxEdges + 1, 1, fun _ => ⟨0, 0, 0⟩⟩

def father (i : Nat) : Nat := i / 2
def left (i : Nat) : Nat := 2 * i
def right (i : Nat) : Nat := 2 * i + 1

/-- `swap_edges` on two slots of the backing store. -/
def swapF (d : Nat → Edge) (a b : Nat) : Nat → Edge :=
  fun x => if x = a then d b else if x = b then d a else d x

/-- The sift-up loop of `add_edge`: swap with the father while it compares
strictly greater. -/
def siftUp (d : Nat → Edge) (node : Nat) : Nat → Edge :=
  if h : father node ≠ 0 ∧ cmp_edges (d (father node)) (d node) > 0 then
    siftUp (swapF d (father node) node) (father node)
  else d
termination_by node
decreasing_by
  simp only [father] at h ⊢
  omega

/-- `add_edge`: write the edge at `curEnd`, bump `curEnd`, sift up from the
written slot. -/
def add_edge (heap : Heap) (edge : Edge) : Heap :=
  { heap with
    curEnd := heap.curEnd + 1,
    data := siftUp (Function.update heap.data heap.curEnd edge) heap.curEnd }

/-- The C local `next` of `extract_min`'s loop: the left child, replaced
by the right child when that exists and compares strictly smaller. -/
def nextChild (d : Nat → Edge) (curEnd node : Nat) : Nat :=
  if right node < curEnd ∧ cmp_edges (d (left node)) (d (right node)) > 0 then
    right node
  else left node

/-- The sift-down loop of `extract_min`: descend towards the smaller child
(ties to the left) while the node does not compare strictly smaller.  The
loop starts at slot 1 and the position only grows, so `node ≥ 1` always;
the explicit `1 ≤ node` conjunct (vacuous on every actual call) makes the
recursion well-founded. -/
def siftDown (d : Nat → Edge) (curEnd : Nat) (node : Nat) : Nat → Edge :=
  if h : left node < curEnd ∧ 1 ≤ node then
    if cmp_edges (d node) (d (nextChild d curEnd node)) < 0 then d
    else siftDown (swapF d node (nextChild d curEnd node)) curEnd
      (nextChild d curEnd node)
  else d
termination_by curEnd - node
decreasing_by
  simp only [nextChild, left, right] at h ⊢
  split_ifs <;> omega

/-- `extract_min`: return slot 1, shrink, move the last occupied slot to
the root, sift down within the shrunk range. -/
def extract_min (heap : Heap) : Edge × Heap :=
  (heap.data 1,
    { heap with
      curEnd := heap.curEnd - 1,
      data := siftDown (swapF heap.data 1 (heap.curEnd - 1)) (heap.curEnd - 1) 1 })

/-- The edges stored in slots `1 .. curEnd - 1` of a backing store. -/
def listOf (d : Nat → Edge) (curEnd : Nat) : List Edge :=
  (List.range' 1 (curEnd - 1)).map d

/-- The multiset of edges currently stored in the heap. -/
def heapList (h : Heap) : List Edge := listOf h.data h.curEnd

/-- The 1-indexed min-heap property on the occupied slots. -/
def HeapOrd (h : Heap) : Prop :=
  ∀ i : Nat, 2 ≤ i → i < h.curEnd → cmp_edges (h.data (i / 2)) (h.data i) ≤ 0

/-- The heaps produced by `create_heap` followed by any sequence of
`add_edge` (within capacity) and `extract_min` (on a non-empty heap). -/
inductive ReachableHeap : Heap → Prop where
  | create (nbMaxEdges : Nat) : ReachableHeap (create_heap nbMaxEdges)
  | add {h : Heap} (e : Edge) : ReachableHeap h → h.curEnd < h.sizeMax →
      ReachableHeap (add_edge h e)
  | extract {h : Heap} : ReachableHeap h → 2 ≤ h.curEnd →
      ReachableHeap (extract_min h).2

theorem cmp_edges_self (a : Edge) : cmp_edges a a = 0 := cmp_edges_eq_zero.mpr rfl

theorem cmp_le_trans {a b c : Edge} (h1 : cmp_edges a b ≤ 0) (h2 : cmp_edges b c ≤ 0) :
    cmp_edges a c ≤ 0 :=
  @IsTrans.trans Edge edgeLe _ a b c h1 h2

theorem cmp_le_of_gt {a b : Edge} (h : cmp_edges a b > 0) : cmp_edges b a ≤ 0 := by
  have := cmp_edges_antisymm a b
  omega

theorem swapF_left (d : Nat → Edge) (a b : Nat) : swapF d a b a = d b := by
  simp [swapF]

theorem swapF_right (d : Nat → Edge) {a b : Nat} (hab : a ≠ b) : swapF d a b b = d a := by
  simp [swapF, Ne.symm hab]

theorem swapF_other (d : Nat → Edge) {a b x : Nat} (hxa : x ≠ a) (hxb : x ≠ b) :
    swapF d a b x = d x := by
  simp [swapF, hxa, hxb]

theorem listOf_congr {d d' : Nat → Edge} {curEnd : Nat}
    (h : ∀ k, 1 ≤ k → k < curEnd → d k = d' k) :
    listOf d curEnd = listOf d' curEnd := by
  refine List.map_congr_left ?_
  intro k hk
  rw [List.mem_range'] at hk
  obtain ⟨i, hi, rfl⟩ := hk
  exact h _ (by omega) (by omega)

/-- Swapping two occupied slots permutes the stored multiset. -/
theorem listOf_swapF_perm (d : Nat → Edge) {a b curEnd : Nat}
    (ha : 1 ≤ a) (hab : a < b) (hb : b < curEnd) :
    (listOf (swapF d a b) curEnd).Perm (listOf d curEnd) := by
  have e1 := List.range'_append 1 (a - 1) 1 1
  rw [show 1 + 1 * (a - 1) = a by omega, show 1 + (a - 1) = a by omega] at e1
  have e4 := List.range'_append (a + 1) (b - a - 1) 1 1
  rw [show a + 1 + 1 * (b - a - 1) = b by omega,
    show 1 + (b - a - 1) = b - a by omega] at e4
  have e2 := List.range'_append 1 a (b - a) 1
  rw [show 1 + 1 * a = a + 1 by omega, show b - a + a = b by omega] at e2
  have e3 := List.range'_append 1 b (curEnd - 1 - b) 1
  rw [show 1 + 1 * b = b + 1 by omega,
    show curEnd - 1 - b + b = curEnd - 1 by omega] at e3
  have hsplit : List.range' 1 (curEnd - 1) =
      List.range' 1 (a - 1) ++ List.range' a 1 ++
        (List.range' (a + 1) (b - a - 1) ++ List.range' b 1) ++
        List.range' (b + 1) (curEnd - 1 - b) := by
    rw [e1, e4, e2, e3]
  have key : ∀ f : Nat → Edge, listOf f curEnd =
      (List.range' 1 (a - 1)).map f ++ [f a] ++
        ((List.range' (a + 1) (b - a - 1)).map f ++ [f b]) ++
        (List.range' (b + 1) (curEnd - 1 - b)).map f := by
    intro f
    rw [listOf, hsplit]
    simp [List.range'_one]
  rw [key (swapF d a b), key d]
  have hA : (List.range' 1 (a - 1)).map (swapF d a b) =
      (List.range' 1 (a - 1)).map d := by
    refine List.map_congr_left ?_
    intro k hk
    rw [List.mem_range'] at hk
    obtain ⟨i, hi, rfl⟩ := hk
    exact swapF_other d (by omega) (by omega)
  have hB : (List.range' (a + 1) (b - a - 1)).map (swapF d a b) =
      (List.range' (a + 1) (b - a - 1)).map d := by
    refine List.map_congr_left ?_
    intro k hk
    rw [List.mem_range'] at hk
    obtain ⟨i, hi, rfl⟩ := hk
    exact swapF_other d (by omega) (by omega)
  have hC : (List.range' (b + 1) (curEnd - 1 - b)).map (swapF d a b) =
      (List.range' (b + 1) (curEnd - 1 - b)).map d := by
    refine List.map_congr_left ?_
    intro k hk
    rw [List.mem_range'] at hk
    obtain ⟨i, hi, rfl⟩ := hk
    exact swapF_other d (by omega) (by omega)
  rw [hA, hB, hC, swapF_left, swapF_right d (Nat.ne_of_lt hab)]
  simp only [List.append_assoc, List.singleton_append, List.cons_append,
    List.nil_append]
  refine List.Perm.append_left _ ?_
  refine (List.Perm.cons (d b) List.perm_middle).trans ?_
  refine (List.Perm.swap (d a) (d b) _).trans ?_
  exact List.Perm.cons (d a) List.perm_middle.symm

theorem siftUp_eq (d : Nat → Edge) (node : Nat) :
    siftUp d node =
      if father node ≠ 0 ∧ cmp_edges (d (father node)) (d node) > 0 then
        siftUp (swapF d (father node) node) (father node)
      else d := by
  rw [siftUp]
  split_ifs <;> rfl

theorem siftDown_eq (d : Nat → Edge) (curEnd node : Nat) :
    siftDown d curEnd node =
      if left node < curEnd ∧ 1 ≤ node then
        (if cmp_edges (d node) (d (nextChild d curEnd node)) < 0 then d
        else siftDown (swapF d node (nextChild d curEnd node)) curEnd
          (nextChild d curEnd node))
      else d := by
  rw [siftDown]
  split_ifs <;> rfl

theorem siftUp_perm (curEnd : Nat) :
    ∀ (node : Nat) (d : Nat → Edge), 1 ≤ node → node < curEnd →
    (listOf (siftUp d node) curEnd).Perm (listOf d curEnd) := by
  intro node
  induction node using Nat.strong_induction_on with
  | _ node ih =>
    intro d h1 h2
    rw [siftUp_eq]
    split_ifs with hg
    · have hp0 : father node ≠ 0 := hg.1
      have hp1 : 1 ≤ father node := Nat.one_le_iff_ne_zero.mpr hp0
      have hpn : father node < node := by
        simp only [father] at hp0 ⊢
        omega
      exact (ih (father node) hpn (swapF d (father node) node) hp1
        (lt_trans hpn h2)).trans (listOf_swapF_perm d hp1 hpn h2)
    · exact List.Perm.refl _

theorem nextChild_facts (d : Nat → Edge) (curEnd node : Nat)
    (hl : left node < curEnd) (h1 : 1 ≤ node) :
    node < nextChild d curEnd node ∧
    nextChild d curEnd node < curEnd ∧
    nextChild d curEnd node / 2 = node ∧
    2 ≤ nextChild d curEnd node ∧
    (∀ c, c / 2 = node → 2 ≤ c → c < curEnd →
      cmp_edges (d (nextChild d curEnd node)) (d c) ≤ 0) := by
  simp only [nextChild, left, right] at hl ⊢
  split_ifs with hsel
  · refine ⟨by omega, hsel.1, by omega, by omega, ?_⟩
    intro c hc h2c hcC
    have hcc : c = 2 * node ∨ c = 2 * node + 1 := by omega
    rcases hcc with rfl | rfl
    · exact cmp_le_of_gt hsel.2
    · exact le_of_eq (cmp_edges_self _)
  · refine ⟨by omega, hl, by omega, by omega, ?_⟩
    intro c hc h2c hcC
    have hcc : c = 2 * node ∨ c = 2 * node + 1 := by omega
    rcases hcc with rfl | rfl
    · exact le_of_eq (cmp_edges_self _)
    · rcases not_and_or.mp hsel with h | h
      · omega
      · push_neg at h
        exact h

theorem siftDown_perm :
    ∀ (fuel curEnd node : Nat) (d : Nat → Edge), curEnd - node ≤ fuel → 1 ≤ node →
    (listOf (siftDown d curEnd node) curEnd).Perm (listOf d curEnd) := by
  intro fuel
  induction fuel with
  | zero =>
    intro curEnd node d hfuel h1
    rw [siftDown_eq]
    have : ¬ (left node < curEnd ∧ 1 ≤ node) := by
      simp only [left]
      omega
    rw [if_neg this]
  | succ fuel ih =>
    intro curEnd node d hfuel h1
    rw [siftDown_eq]
    split_ifs with hg hstop
    · exact List.Perm.refl _
    · obtain ⟨hlt, hnC, _, h2n, _⟩ := nextChild_facts d curEnd node hg.1 hg.2
      exact (ih curEnd (nextChild d curEnd node) (swapF d node (nextChild d curEnd node))
        (by omega) (by omega)).trans
        (listOf_swapF_perm _ h1 hlt hnC)
    · exact List.Perm.refl _

/-- Sift-up restores the heap order from the "heap with one hole" state:
all parent/child pairs are ordered except possibly at `node`, and `node`'s
children are bounded below by `node`'s father. -/
theorem siftUp_heapOrd (curEnd : Nat) :
    ∀ (node : Nat) (d : Nat → Edge), node < curEnd →
    (∀ i, 2 ≤ i → i < curEnd → i ≠ node → cmp_edges (d (i / 2)) (d i) ≤ 0) →
    (∀ c, 2 ≤ c → c < curEnd → c / 2 = node → 2 ≤ node →
      cmp_edges (d (node / 2)) (d c) ≤ 0) →
    ∀ i, 2 ≤ i → i < curEnd →
      cmp_edges ((siftUp d node) (i / 2)) ((siftUp d node) i) ≤ 0 := by
  intro node
  induction node using Nat.strong_induction_on with
  | _ node ih =>
    intro d hn hA hB
    rw [siftUp_eq]
    split_ifs with hg
    · have hp0 : father node ≠ 0 := hg.1
      have hgt : cmp_edges (d (father node)) (d node) > 0 := hg.2
      have hnode2 : 2 ≤ node := by
        simp only [father] at hp0
        omega
      have hppos : 1 ≤ father node := Nat.one_le_iff_ne_zero.mpr hp0
      have hpn : father node < node := by
        simp only [father]
        omega
      have hfd : father node = node / 2 := rfl
      have hpC : father node < curEnd := lt_trans hpn hn
      have hpne : father node ≠ node := Nat.ne_of_lt hpn
      apply ih (father node) hpn (swapF d (father node) node) hpC
      · -- parent/child pairs away from the new hole
        intro i h2i hiC hip
        by_cases hin : i = node
        · subst hin
          rw [← hfd, swapF_left, swapF_right d hpne]
          exact cmp_le_of_gt hgt
        · by_cases hi2n : i / 2 = node
          · have hinf : i ≠ father node := by omega
            rw [hi2n, swapF_right d hpne, swapF_other d hinf hin]
            have hgc := hB i h2i hiC hi2n hnode2
            rw [← hfd] at hgc
            exact hgc
          · by_cases hi2p : i / 2 = father node
            · rw [hi2p, swapF_left, swapF_other d hip hin]
              refine cmp_le_trans (cmp_le_of_gt hgt) ?_
              have := hA i h2i hiC hin
              rw [hi2p] at this
              exact this
            · rw [swapF_other d hi2p hi2n, swapF_other d hip hin]
              exact hA i h2i hiC hin
      · -- grandchildren of the new hole
        intro c h2c hcC hcp h2p
        have hpp : father node / 2 < father node := by omega
        have hppne : father node / 2 ≠ father node := Nat.ne_of_lt hpp
        have hppnn : father node / 2 ≠ node := by omega
        rw [swapF_other d hppne hppnn]
        by_cases hcn : c = node
        · rw [hcn, swapF_right d hpne]
          exact hA (father node) h2p hpC hpne
        · have hcnep : c ≠ father node := by omega
          rw [swapF_other d hcnep hcn]
          refine cmp_le_trans (hA (father node) h2p hpC hpne) ?_
          have := hA c h2c hcC hcn
          rw [hcp] at this
          exact this
    · intro i h2i hiC
      by_cases hi : i = node
      · subst hi
        rcases not_and_or.mp hg with h | h
        · simp only [father] at h
          push_neg at h
          omega
        · push_neg at h
          exact h
      · exact hA i h2i hiC hi

/-- Sift-down restores the heap order from the "root violation" state: all
parent/child pairs are ordered except possibly below `node`, and (when
`node` is not the root) `node`'s children are bounded by `node`'s father. -/
theorem siftDown_heapOrd :
    ∀ (fuel curEnd node : Nat) (d : Nat → Edge), curEnd - node ≤ fuel →
    1 ≤ node →
    (∀ i, 2 ≤ i → i < curEnd → i / 2 ≠ node → cmp_edges (d (i / 2)) (d i) ≤ 0) →
    (2 ≤ node → ∀ c, 2 ≤ c → c < curEnd → c / 2 = node →
      cmp_edges (d (node / 2)) (d c) ≤ 0) →
    ∀ i, 2 ≤ i → i < curEnd →
      cmp_edges ((siftDown d curEnd node) (i / 2)) ((siftDown d curEnd node) i) ≤ 0 := by
  intro fuel
  induction fuel with
  | zero =>
    intro curEnd node d hfuel h1 hA hB i h2i hiC
    rw [siftDown_eq, if_neg (by simp only [left]; omega)]
    by_cases hi2 : i / 2 = node
    · omega
    · exact hA i h2i hiC hi2
  | succ fuel ih =>
    intro curEnd node d hfuel h1 hA hB i h2i hiC
    rw [siftDown_eq]
    split_ifs with hg hstop
    · -- the node already compares strictly below its smaller child
      obtain ⟨hlt, hnC, hn2, h2n, hmin⟩ := nextChild_facts d curEnd node hg.1 hg.2
      by_cases hi2 : i / 2 = node
      · rw [hi2]
        exact cmp_le_trans (le_of_lt hstop) (hmin i hi2 h2i hiC)
      · exact hA i h2i hiC hi2
    · -- swap with the smaller child and recurse there
      obtain ⟨hlt, hnC, hn2, h2n, hmin⟩ := nextChild_facts d curEnd node hg.1 hg.2
      have hne : node ≠ nextChild d curEnd node := Nat.ne_of_lt hlt
      have hcmpge : cmp_edges (d (nextChild d curEnd node)) (d node) ≤ 0 := by
        have := cmp_edges_antisymm (d node) (d (nextChild d curEnd node))
        omega
      refine ih curEnd (nextChild d curEnd node) (swapF d node (nextChild d curEnd node))
        (by omega) (by omega) ?_ ?_ i h2i hiC
      · intro i' h2i' hi'C hi'2
        by_cases hi'next : i' = nextChild d curEnd node
        · subst hi'next
          rw [hn2, swapF_left, swapF_right d hne]
          exact hcmpge
        · by_cases hi'node : i' = node
          · subst hi'node
            have h2node : 2 ≤ i' := h2i'
            have hf : i' / 2 ≠ i' := by omega
            have hfnext : i' / 2 ≠ nextChild d curEnd i' := by omega
            rw [swapF_left, swapF_other d hf hfnext]
            exact hB h2node _ h2n hnC hn2
          · by_cases hi'2node : i' / 2 = node
            · rw [hi'2node, swapF_left, swapF_other d hi'node hi'next]
              exact hmin i' hi'2node h2i' hi'C
            · rw [swapF_other d hi'2node hi'2, swapF_other d hi'node hi'next]
              exact hA i' h2i' hi'C hi'2node
      · intro h2next c h2c hcC hc2
        have hcnode : c ≠ node := by omega
        have hcnext : c ≠ nextChild d curEnd node := by omega
        rw [hn2, swapF_left, swapF_other d hcnode hcnext]
        have := hA c h2c hcC (by omega)
        rw [hc2] at this
        exact this
    · -- guard false: node has no child inside the range
      by_cases hi2 : i / 2 = node
      · rcases not_and_or.mp hg with h | h
        · simp only [left] at h
          omega
        · omega
      · exact hA i h2i hiC hi2

/-- Every reachable heap is ordered (and non-degenerate: `curEnd ≥ 1`). -/
theorem reachable_ord {h : Heap} (hr : ReachableHeap h) :
    HeapOrd h ∧ 1 ≤ h.curEnd := by
  induction hr with
  | create n =>
    constructor
    · intro i h2 hi
      have : i < 1 := hi
      omega
    · exact le_refl 1
  | @add h0 e hrh hcap ih =>
    obtain ⟨hord, hpos⟩ := ih
    constructor
    · intro i h2 hi
      show cmp_edges ((siftUp (Function.update h0.data h0.curEnd e) h0.curEnd) (i / 2))
        ((siftUp (Function.update h0.data h0.curEnd e) h0.curEnd) i) ≤ 0
      have hi' : i < h0.curEnd + 1 := hi
      refine siftUp_heapOrd (h0.curEnd + 1) h0.curEnd
        (Function.update h0.data h0.curEnd e) (by omega) ?_ ?_ i h2 hi'
      · intro i' h2' hiC' hne
        have hne3 : i' / 2 ≠ h0.curEnd := by omega
        rw [Function.update_noteq hne3, Function.update_noteq hne]
        exact hord i' h2' (by omega)
      · intro c h2c hcC hc2 h2n
        omega
    · show 1 ≤ h0.curEnd + 1
      omega
  | @extract h0 hrh h2c ih =>
    obtain ⟨hord, hpos⟩ := ih
    constructor
    · intro i h2 hi
      show cmp_edges ((siftDown (swapF h0.data 1 (h0.curEnd - 1)) (h0.curEnd - 1) 1) (i / 2))
        ((siftDown (swapF h0.data 1 (h0.curEnd - 1)) (h0.curEnd - 1) 1) i) ≤ 0
      have hi' : i < h0.curEnd - 1 := hi
      refine siftDown_heapOrd h0.curEnd (h0.curEnd - 1) 1
        (swapF h0.data 1 (h0.curEnd - 1)) (by omega) (by omega) ?_ ?_ i h2 hi'
      · intro i' h2' hiC' hi'2
        have hxa : i' ≠ 1 := by omega
        have hxb : i' ≠ h0.curEnd - 1 := by omega
        have hyb : i' / 2 ≠ h0.curEnd - 1 := by omega
        rw [swapF_other _ hi'2 hyb, swapF_other _ hxa hxb]
        exact hord i' h2' (by omega)
      · intro h21
        omega
    · show 1 ≤ h0.curEnd - 1
      omega

/-- In an ordered heap the root is a minimum of the stored slots. -/
theorem heapOrd_root_min {h : Heap} (hord : HeapOrd h) :
    ∀ i, 1 ≤ i → i < h.curEnd → cmp_edges (h.data 1) (h.data i) ≤ 0 := by
  intro i
  induction i using Nat.strong_induction_on with
  | _ i ih =>
    intro h1 h2
    rcases Nat.lt_or_ge i 2 with hi | hi
    · have hone : i = 1 := by omega
      subst hone
      rw [cmp_edges_self]
    · exact cmp_le_trans (ih (i / 2) (by omega) (by omega) (by omega)) (hord i hi h2)

/-- `C7`: every heap reachable from `create_heap` through `add_edge`
(within capacity) and `extract_min` (on a non-empty heap) satisfies the
1-indexed min-heap property, and the edge `extract_min` returns (slot 1)
is minimal under `cmp_edges` among the stored edges. -/
theorem C7_reachable_heap_invariant (h : Heap) (hr : ReachableHeap h) :
    HeapOrd h ∧ ∀ e ∈ heapList h, cmp_edges (extract_min h).1 e ≤ 0 := by
  obtain ⟨hord, _⟩ := reachable_ord hr
  refine ⟨hord, ?_⟩
  intro e he
  rw [heapList, listOf, List.mem_map] at he
  obtain ⟨k, hk, rfl⟩ := he
  rw [List.mem_range'] at hk
  obtain ⟨m, hm, rfl⟩ := hk
  show cmp_edges (h.data 1) (h.data (1 + 1 * m)) ≤ 0
  exact heapOrd_root_min hord (1 + 1 * m) (by omega) (by omega)

/-- Witness for `C7` on a concrete reachable two-element heap. -/
theorem C7_reachable_heap_invariant_witness :
    ReachableHeap (add_edge (add_edge (create_heap 3) ⟨0, 1, 5⟩) ⟨1, 2, 3⟩) ∧
    (HeapOrd (add_edge (add_edge (create_heap 3) ⟨0, 1, 5⟩) ⟨1, 2, 3⟩) ∧
      ∀ e ∈ heapList (add_edge (add_edge (create_heap 3) ⟨0, 1, 5⟩) ⟨1, 2, 3⟩),
        cmp_edges (extract_min (add_edge (add_edge (create_heap 3) ⟨0, 1, 5⟩) ⟨1, 2, 3⟩)).1 e ≤ 0) :=
  have hre : ReachableHeap (add_edge (add_edge (create_heap 3) ⟨0, 1, 5⟩) ⟨1, 2, 3⟩) :=
    ReachableHeap.add ⟨1, 2, 3⟩
      (ReachableHeap.add ⟨0, 1, 5⟩ (ReachableHeap.create 3) (by decide)) (by decide)
  ⟨hre, C7_reachable_heap_invariant _ hre⟩

/-- `add_edge` adds exactly the new edge to the stored multiset. -/
theorem heapList_add_perm (h : Heap) (e : Edge) (hpos : 1 ≤ h.curEnd) :
    (heapList (add_edge h e)).Perm (e :: heapList h) := by
  have hstep : (heapList (add_edge h e)).Perm
      (listOf (Function.update h.data h.curEnd e) (h.curEnd + 1)) := by
    show (listOf (siftUp (Function.update h.data h.curEnd e) h.curEnd) (h.curEnd + 1)).Perm _
    exact siftUp_perm (h.curEnd + 1) h.curEnd _ hpos (by omega)
  have hsplit := List.range'_append 1 (h.curEnd - 1) 1 1
  rw [show 1 + 1 * (h.curEnd - 1) = h.curEnd by omega,
    show 1 + (h.curEnd - 1) = h.curEnd by omega] at hsplit
  have hlist : listOf (Function.update h.data h.curEnd e) (h.curEnd + 1) =
      heapList h ++ [e] := by
    rw [listOf, show h.curEnd + 1 - 1 = h.curEnd from rfl, ← hsplit, List.map_append]
    congr 1
    · refine List.map_congr_left ?_
      intro k hk
      rw [List.mem_range'] at hk
      obtain ⟨m, hm, rfl⟩ := hk
      exact Function.update_noteq (by omega) _ _
    · rw [List.range'_one, List.map_singleton, Function.update_same]
  rw [hlist] at hstep
  exact hstep.trans (List.perm_append_singleton e (heapList h))

/-- `extract_min` removes exactly the returned root from the stored
multiset. -/
theorem heapList_extract_perm (h : Heap) (h2 : 2 ≤ h.curEnd) :
    ((extract_min h).1 :: heapList (extract_min h).2).Perm (heapList h) := by
  have hstep : (heapList (extract_min h).2).Perm
      (listOf (swapF h.data 1 (h.curEnd - 1)) (h.curEnd - 1)) := by
    show (listOf (siftDown (swapF h.data 1 (h.curEnd - 1)) (h.curEnd - 1) 1)
      (h.curEnd - 1)).Perm _
    exact siftDown_perm h.curEnd (h.curEnd - 1) 1 _ (by omega) (by omega)
  rcases Nat.lt_or_ge h.curEnd 3 with h3 | h3
  · have hc2 : h.curEnd = 2 := by omega
    have hempty : heapList (extract_min h).2 = [] := by
      show listOf (siftDown (swapF h.data 1 (h.curEnd - 1)) (h.curEnd - 1) 1)
        (h.curEnd - 1) = []
      rw [listOf, hc2]
      rfl
    have hfull : heapList h = [h.data 1] := by
      rw [heapList, listOf, hc2]
      rfl
    rw [hempty, hfull]
    exact List.Perm.refl _
  · have e1 := List.range'_append 1 1 (h.curEnd - 3) 1
    rw [show 1 + 1 * 1 = 2 by omega,
      show h.curEnd - 3 + 1 = h.curEnd - 2 by omega] at e1
    have hswapped : listOf (swapF h.data 1 (h.curEnd - 1)) (h.curEnd - 1) =
        h.data (h.curEnd - 1) :: (List.range' 2 (h.curEnd - 3)).map h.data := by
      rw [listOf, show h.curEnd - 1 - 1 = h.curEnd - 2 by omega, ← e1,
        List.map_append, List.range'_one, List.map_singleton, swapF_left]
      rw [List.singleton_append]
      congr 1
      refine List.map_congr_left ?_
      intro k hk
      rw [List.mem_range'] at hk
      obtain ⟨m, hm, rfl⟩ := hk
      exact swapF_other _ (by omega) (by omega)
    have e2 := List.range'_append 1 (h.curEnd - 2) 1 1
    rw [show 1 + 1 * (h.curEnd - 2) = h.curEnd - 1 by omega,
      show 1 + (h.curEnd - 2) = h.curEnd - 1 by omega] at e2
    have hfull : heapList h =
        h.data 1 :: ((List.range' 2 (h.curEnd - 3)).map h.data ++
          [h.data (h.curEnd - 1)]) := by
      rw [heapList, listOf, ← e2, ← e1, List.map_append, List.map_append,
        List.range'_one, List.range'_one, List.map_singleton, List.map_singleton]
      rw [List.singleton_append, List.cons_append]
    rw [hfull]
    refine (List.Perm.cons _ (hstep.trans ?_)).trans
      (List.Perm.cons _ (List.perm_append_singleton _ _).symm)
    rw [hswapped]

/-! ### Sequential Prim (claim C2) -/

/-- `add_neighbors`: push onto the heap every edge from `node` to an
unvisited neighbor joined by a non-zero adjacency entry. -/
def add_neighbors (node : Int) (N : Nat) (adj : Int → Int → Int)
    (isVisited : Int → Bool) (heap : Heap) : Heap :=
  (List.range N).foldl (fun h (neighbor : Nat) =>
    if adj node (neighbor : Int) ≠ 0 ∧ isVisited (neighbor : Int) = false then
      add_edge h (init_edge node (neighbor : Int) (adj node (neighbor : Int)))
    else h) heap

/-- The `while` loop of `sequential_prim`, with explicit fuel: pop the
minimum, let `node` be the endpoint the C conditional picks, skip if it
is already visited, otherwise emit the edge, mark `node` and push its
edges to unvisited neighbors.  The fuel `sequential_prim` supplies is
proved never to run out. -/
def prim_loop (N : Nat) (adj : Int → Int → Int) :
    Nat → (Int → Bool) → Heap → List Edge → List Edge
  | 0, _, _, acc => acc
  | fuel + 1, isVisited, heap, acc =>
    if heap.curEnd ≠ 1 ∧ acc.length < N then
      let p := extract_min heap
      let node : Int := if isVisited p.1.i = false then p.1.i else p.1.j
      if isVisited node = true then prim_loop N adj fuel isVisited p.2 acc
      else
        prim_loop N adj fuel (Function.update isVisited node true)
          (add_neighbors node N adj (Function.update isVisited node true) p.2)
          (acc ++ [p.1])
    else acc

/-- `sequential_prim`: vertex `0` starts visited, its incident edges seed
the heap, then the loop runs; the result is the list written to the
caller's `edges` buffer. -/
def sequential_prim (N M : Nat) (adj : Int → Int → Int) : List Edge :=
  prim_loop N adj ((N + 1) * (N + 1)) (fun v => decide (v = 0))
    (add_neighbors 0 N adj (fun v => decide (v = 0)) (create_heap M)) []

theorem prim_loop_succ (N : Nat) (adj : Int → Int → Int) (fuel : Nat)
    (isVisited : Int → Bool) (heap : Heap) (acc : List Edge) :
    prim_loop N adj (fuel + 1) isVisited heap acc =
      if heap.curEnd ≠ 1 ∧ acc.length < N then
        if isVisited (if isVisited (extract_min heap).1.i = false
            then (extract_min heap).1.i else (extract_min heap).1.j) = true then
          prim_loop N adj fuel isVisited (extract_min heap).2 acc
        else
          prim_loop N adj fuel
            (Function.update isVisited (if isVisited (extract_min heap).1.i = false
              then (extract_min heap).1.i else (extract_min heap).1.j) true)
            (add_neighbors (if isVisited (extract_min heap).1.i = false
                then (extract_min heap).1.i else (extract_min heap).1.j) N adj
              (Function.update isVisited (if isVisited (extract_min heap).1.i = false
                then (extract_min heap).1.i else (extract_min heap).1.j) true)
              (extract_min heap).2)
            (acc ++ [(extract_min heap).1])
      else acc := rfl

theorem bool_tf {b : Bool} (h1 : b = true) (h2 : b = false) : False := by
  rw [h1] at h2
  exact Bool.noConfusion h2

theorem bool_not_true {b : Bool} (h : ¬b = true) : b = false := by
  cases b with
  | false => rfl
  | true => exact (h rfl).elim

/-- The number of visited vertices among `0 .. N-1`. -/
def visCard (N : Nat) (vis : Int → Bool) : Nat :=
  ((Finset.Ico (0 : Int) (N : Int)).filter (fun v => vis v = true)).card

theorem visCard_le (N : Nat) (vis : Int → Bool) : visCard N vis ≤ N := by
  have h1 : visCard N vis ≤ (Finset.Ico (0 : Int) (N : Int)).card :=
    Finset.card_filter_le _ _
  rw [Int.card_Ico] at h1
  omega

theorem visCard_update (N : Nat) (vis : Int → Bool) (v : Int)
    (hv0 : 0 ≤ v) (hvN : v < (N : Int)) (hfalse : vis v = false) :
    visCard N (Function.update vis v true) = visCard N vis + 1 := by
  unfold visCard
  have hset : (Finset.Ico (0 : Int) (N : Int)).filter
      (fun x => Function.update vis v true x = true) =
      insert v ((Finset.Ico (0 : Int) (N : Int)).filter (fun x => vis x = true)) := by
    ext x
    simp only [Finset.mem_filter, Finset.mem_insert, Finset.mem_Ico]
    constructor
    · rintro ⟨hx, hupd⟩
      by_cases hxv : x = v
      · exact Or.inl hxv
      · rw [Function.update_noteq hxv] at hupd
        exact Or.inr ⟨hx, hupd⟩
    · rintro (rfl | ⟨hx, hvx⟩)
      · exact ⟨⟨hv0, hvN⟩, by rw [Function.update_same]⟩
      · refine ⟨hx, ?_⟩
        by_cases hxv : x = v
        · rw [hxv] at hvx
          exact (bool_tf hvx hfalse).elim
        · rw [Function.update_noteq hxv]
          exact hvx
  rw [hset, Finset.card_insert_of_not_mem (by
    simp only [Finset.mem_filter, not_and]
    intro _
    rw [hfalse]
    simp)]

theorem visCard_full (N : Nat) (vis : Int → Bool)
    (hall : ∀ v : Int, 0 ≤ v → v < (N : Int) → vis v = true) :
    visCard N vis = N := by
  unfold visCard
  rw [Finset.filter_true_of_mem]
  · rw [Int.card_Ico]
    omega
  · intro x hx
    rw [Finset.mem_Ico] at hx
    exact hall x hx.1 hx.2

/-- A path from a visited vertex to an unvisited one crosses the cut:
some non-zero entry joins a visited vertex to an unvisited in-range one. -/
theorem exists_cut (N : Nat) (adj : Int → Int → Int) (vis : Int → Bool)
    {x b : Int} (hx : vis x = true)
    (hpath : Relation.ReflTransGen (adjRel N adj) x b) :
    vis b = false →
    ∃ a c : Int, vis a = true ∧ vis c = false ∧ 0 ≤ c ∧ c < (N : Int) ∧
      adj a c ≠ 0 := by
  induction hpath with
  | refl =>
    intro hb
    exact (bool_tf hx hb).elim
  | @tail m c hxm hmc ih =>
    intro hb
    have hmc' : 0 ≤ m ∧ m < (N : Int) ∧ 0 ≤ c ∧ c < (N : Int) ∧ adj m c ≠ 0 := hmc
    cases hm : vis m with
    | true => exact ⟨m, c, hm, hb, hmc'.2.2.1, hmc'.2.2.2.1, hmc'.2.2.2.2⟩
    | false => exact ih hm

theorem init_edge_endpoint_right (a b w : Int) :
    (init_edge a b w).i = b ∨ (init_edge a b w).j = b := by
  obtain ⟨hcase, _, _⟩ := init_edge_fields a b w
  rcases hcase with ⟨h1, h2⟩ | ⟨h1, h2⟩
  · exact Or.inr h2
  · exact Or.inl h1

theorem init_edge_endpoints (a b w : Int) :
    ((init_edge a b w).i = a ∨ (init_edge a b w).i = b) ∧
    ((init_edge a b w).j = a ∨ (init_edge a b w).j = b) := by
  obtain ⟨hcase, _, _⟩ := init_edge_fields a b w
  rcases hcase with ⟨h1, h2⟩ | ⟨h1, h2⟩
  · exact ⟨Or.inl h1, Or.inr h2⟩
  · exact ⟨Or.inr h1, Or.inl h2⟩

/-- `add_neighbors` grows the heap by at most `N` slots, keeps every
stored edge, adds only edges from `node` to unvisited neighbors with a
non-zero entry, and adds all of those. -/
theorem add_neighbors_spec (node : Int) (adj : Int → Int → Int)
    (vis : Int → Bool) (N : Nat) (h : Heap) (hpos : 1 ≤ h.curEnd) :
    (1 ≤ (add_neighbors node N adj vis h).curEnd ∧
      (add_neighbors node N adj vis h).curEnd ≤ h.curEnd + N) ∧
    (∀ e, e ∈ heapList h → e ∈ heapList (add_neighbors node N adj vis h)) ∧
    (∀ e, e ∈ heapList (add_neighbors node N adj vis h) →
      e ∈ heapList h ∨ ∃ nb : Nat, nb < N ∧ adj node nb ≠ 0 ∧
        vis nb = false ∧ e = init_edge node nb (adj node nb)) ∧
    (∀ nb : Nat, nb < N → adj node nb ≠ 0 → vis (nb : Int) = false →
      init_edge node nb (adj node nb) ∈ heapList (add_neighbors node N adj vis h)) := by
  induction N with
  | zero =>
    simp only [add_neighbors, List.range_zero, List.foldl_nil]
    exact ⟨⟨hpos, by omega⟩, fun e he => he, fun e he => Or.inl he,
      fun nb hnb => absurd hnb (Nat.not_lt_zero nb)⟩
  | succ n ih =>
    obtain ⟨⟨hp1, hp2⟩, ihmono, ihfrom, ihnew⟩ := ih
    have hstep : add_neighbors node (n + 1) adj vis h =
        (if adj node (n : Int) ≠ 0 ∧ vis (n : Int) = false then
          add_edge (add_neighbors node n adj vis h)
            (init_edge node (n : Int) (adj node (n : Int)))
        else add_neighbors node n adj vis h) := by
      simp only [add_neighbors, List.range_succ, List.foldl_append,
        List.foldl_cons, List.foldl_nil]
    by_cases hc : adj node (n : Int) ≠ 0 ∧ vis (n : Int) = false
    · rw [hstep, if_pos hc]
      have hperm := heapList_add_perm (add_neighbors node n adj vis h)
        (init_edge node (n : Int) (adj node (n : Int))) hp1
      refine ⟨⟨?_, ?_⟩, ?_, ?_, ?_⟩
      · show 1 ≤ (add_neighbors node n adj vis h).curEnd + 1
        omega
      · show (add_neighbors node n adj vis h).curEnd + 1 ≤ h.curEnd + (n + 1)
        omega
      · intro e he
        exact hperm.mem_iff.mpr (List.mem_cons_of_mem _ (ihmono e he))
      · intro e he
        rcases List.mem_cons.mp (hperm.mem_iff.mp he) with heq | hA
        · exact Or.inr ⟨n, by omega, hc.1, hc.2, heq⟩
        · rcases ihfrom e hA with hold | ⟨nb, hnb, h1, h2, h3⟩
          · exact Or.inl hold
          · exact Or.inr ⟨nb, by omega, h1, h2, h3⟩
      · intro nb hnb hadjnb hvisnb
        by_cases hnbn : nb = n
        · subst hnbn
          exact hperm.mem_iff.mpr (List.mem_cons_self _ _)
        · exact hperm.mem_iff.mpr
            (List.mem_cons_of_mem _ (ihnew nb (by omega) hadjnb hvisnb))
    · rw [hstep, if_neg hc]
      refine ⟨⟨hp1, by omega⟩, ihmono, ?_, ?_⟩
      · intro e he
        rcases ihfrom e he with hold | ⟨nb, hnb, h1, h2, h3⟩
        · exact Or.inl hold
        · exact Or.inr ⟨nb, by omega, h1, h2, h3⟩
      · intro nb hnb hadjnb hvisnb
        by_cases hnbn : nb = n
        · subst hnbn
          exact absurd ⟨hadjnb, hvisnb⟩ hc
        · exact ihnew nb (by omega) hadjnb hvisnb

/-- The loop invariant of `sequential_prim`: vertex 0 is visited, visited
vertices are in range, the emitted count is one less than the visited
count, every cut edge (visited to unvisited, non-zero entry) is stored in
the heap, every stored edge is a genuine in-range graph edge, and the
heap state is well-formed. -/
structure PrimInv (N : Nat) (adj : Int → Int → Int) (vis : Int → Bool)
    (heap : Heap) (acc : List Edge) : Prop where
  vis0 : vis 0 = true
  visRange : ∀ v : Int, vis v = true → 0 ≤ v ∧ v < (N : Int)
  count : acc.length + 1 = visCard N vis
  cutEdges : ∀ a b : Int, vis a = true → vis b = false → 0 ≤ b →
    b < (N : Int) → adj a b ≠ 0 → init_edge a b (adj a b) ∈ heapList heap
  stored : ∀ e ∈ heapList heap, (0 ≤ e.i ∧ e.i < (N : Int)) ∧
    (0 ≤ e.j ∧ e.j < (N : Int)) ∧ adj e.i e.j = e.w ∧ e.w ≠ 0
  hpos : 1 ≤ heap.curEnd

/-- Main lemma for `sequential_prim`: from any invariant state with
enough fuel (the potential `curEnd + (N+1)*(N - visited)`), the loop
emits a total of `N - 1` edges on a connected symmetric input, and the
result does not depend on the exact fuel once it meets the bound (so the
C `while` loop terminates in exactly that state). -/
theorem prim_loop_spec (N : Nat) (adj : Int → Int → Int)
    (hsym : ∀ a b : Int, adj a b = adj b a) (hconn : Connected N adj)
    (hN : 1 ≤ N) :
    ∀ (fuel : Nat) (vis : Int → Bool) (heap : Heap) (acc : List Edge),
      PrimInv N adj vis heap acc →
      heap.curEnd + (N + 1) * (N - visCard N vis) ≤ fuel →
      (prim_loop N adj fuel vis heap acc).length = N - 1 ∧
      (∀ fuel2 : Nat, heap.curEnd + (N + 1) * (N - visCard N vis) ≤ fuel2 →
        prim_loop N adj fuel2 vis heap acc = prim_loop N adj fuel vis heap acc) := by
  have key1 : ∀ f c c2 A : Nat, 2 ≤ c → c2 ≤ c - 1 + N →
      c + (A + N + 1) ≤ f + 1 → c2 + A ≤ f := by
    intro f c c2 A h1 h2 h3
    omega
  have key2 : ∀ f c c2 A : Nat, 2 ≤ c → c2 = c - 1 →
      c + A ≤ f + 1 → c2 + A ≤ f := by
    intro f c c2 A h1 h2 h3
    omega
  intro fuel
  induction fuel with
  | zero =>
    intro vis heap acc hinv hfuel
    exact absurd (le_trans (le_trans hinv.hpos (Nat.le_add_right _ _)) hfuel)
      (by omega)
  | succ fuel ih =>
    intro vis heap acc hinv hfuel
    by_cases hguard : heap.curEnd ≠ 1 ∧ acc.length < N
    · have h2 : 2 ≤ heap.curEnd := by
        have := hinv.hpos
        have := hguard.1
        omega
      set p := extract_min heap with hP
      have hperm := heapList_extract_perm heap h2
      rw [← hP] at hperm
      have hcur : p.2.curEnd = heap.curEnd - 1 := by
        rw [hP]
        rfl
      have hmem : p.1 ∈ heapList heap := hperm.mem_iff.mp (List.mem_cons_self _ _)
      have hstored := hinv.stored p.1 hmem
      set nd := if vis p.1.i = false then p.1.i else p.1.j with hnd
      by_cases hvisnode : vis nd = true
      · -- stale entry: both endpoints already visited, the edge is dropped
        have hvi : vis p.1.i = true := by
          cases hbi : vis p.1.i with
          | false =>
            have hndi : nd = p.1.i := by rw [hnd, if_pos hbi]
            rw [hndi] at hvisnode
            rw [hbi] at hvisnode
            exact hvisnode
          | true => rfl
        have hvj : vis p.1.j = true := by
          cases hbi : vis p.1.i with
          | false =>
            have hndi : nd = p.1.i := by rw [hnd, if_pos hbi]
            rw [hndi] at hvisnode
            rw [hbi] at hvisnode
            exact Bool.noConfusion hvisnode
          | true =>
            have hndj : nd = p.1.j := by
              rw [hnd, if_neg (fun hf => bool_tf hbi hf)]
            rw [hndj] at hvisnode
            exact hvisnode
        have hinv2 : PrimInv N adj vis p.2 acc := by
          refine ⟨hinv.vis0, hinv.visRange, hinv.count, ?_, ?_, ?_⟩
          · intro a b hva hvb hb0 hbN hadj
            have hold := hinv.cutEdges a b hva hvb hb0 hbN hadj
            have hne : init_edge a b (adj a b) ≠ p.1 := by
              intro heq
              rcases init_edge_endpoint_right a b (adj a b) with hib | hjb
              · have hbt : vis b = true := by rw [← hib, heq]; exact hvi
                exact bool_tf hbt hvb
              · have hbt : vis b = true := by rw [← hjb, heq]; exact hvj
                exact bool_tf hbt hvb
            rcases List.mem_cons.mp (hperm.mem_iff.mpr hold) with heq | hm2
            · exact absurd heq hne
            · exact hm2
          · intro e he
            exact hinv.stored e (hperm.mem_iff.mp (List.mem_cons_of_mem _ he))
          · rw [hcur]
            omega
        have hB : p.2.curEnd + (N + 1) * (N - visCard N vis) ≤ fuel := by
          rw [hcur]
          exact key2 fuel heap.curEnd (heap.curEnd - 1) _ h2 rfl hfuel
        obtain ⟨hlen, hstable⟩ := ih vis p.2 acc hinv2 hB
        have hrun : ∀ f : Nat, prim_loop N adj (f + 1) vis heap acc =
            prim_loop N adj f vis p.2 acc := by
          intro f
          rw [prim_loop_succ, if_pos hguard, ← hP, ← hnd, if_pos hvisnode]
        refine ⟨?_, ?_⟩
        · rw [hrun fuel]
          exact hlen
        · intro fuel2 hf2
          have h1f : 1 ≤ fuel2 :=
            le_trans (le_trans hinv.hpos (Nat.le_add_right _ _)) hf2
          obtain ⟨f2, rfl⟩ : ∃ f2, fuel2 = f2 + 1 := ⟨fuel2 - 1, by omega⟩
          rw [hrun f2, hrun fuel]
          refine hstable f2 ?_
          rw [hcur]
          exact key2 f2 heap.curEnd (heap.curEnd - 1) _ h2 rfl hf2
      · -- fresh vertex: emit the edge, mark it, push its neighbors
        have hndvis : vis nd = false := bool_not_true hvisnode
        have hnd0 : nd ≠ 0 := by
          intro h0
          rw [h0] at hndvis
          exact bool_tf hinv.vis0 hndvis
        have hndmem : nd = p.1.i ∨ nd = p.1.j := by
          rw [hnd]
          split_ifs
          · exact Or.inl rfl
          · exact Or.inr rfl
        have hndrange : 0 ≤ nd ∧ nd < (N : Int) := by
          rcases hndmem with h | h <;> rw [h]
          · exact hstored.1
          · exact hstored.2.1
        set vis2 := Function.update vis nd true with hv2
        have hp2pos : 1 ≤ p.2.curEnd := by
          rw [hcur]
          omega
        obtain ⟨⟨ha1, ha2⟩, hamono, hafrom, hanew⟩ :=
          add_neighbors_spec nd adj vis2 N p.2 hp2pos
        set heap2 := add_neighbors nd N adj vis2 p.2 with hh2
        have hvc : visCard N vis2 = visCard N vis + 1 := by
          rw [hv2]
          exact visCard_update N vis nd hndrange.1 hndrange.2 hndvis
        have hinv2 : PrimInv N adj vis2 heap2 (acc ++ [p.1]) := by
          refine ⟨?_, ?_, ?_, ?_, ?_, ?_⟩
          · rw [hv2, Function.update_noteq (Ne.symm hnd0)]
            exact hinv.vis0
          · intro v hv
            by_cases hvnd : v = nd
            · rw [hvnd]
              exact hndrange
            · rw [hv2, Function.update_noteq hvnd] at hv
              exact hinv.visRange v hv
          · have h1 := hinv.count
            simp only [List.length_append, List.length_singleton]
            omega
          · intro a b hva hvb hb0 hbN hadj
            have hbne : b ≠ nd := by
              intro hbeq
              rw [hv2, hbeq, Function.update_same] at hvb
              exact Bool.noConfusion hvb
            by_cases hand : a = nd
            · have hb2 : ((b.toNat : Nat) : Int) = b := Int.toNat_of_nonneg hb0
              have hnew := hanew b.toNat (by omega)
                (by rw [hb2, ← hand]; exact hadj)
                (by rw [hb2]; exact hvb)
              rw [hb2] at hnew
              rw [hand]
              exact hnew
            · have hvb2 : vis b = false := by
                rw [hv2, Function.update_noteq hbne] at hvb
                exact hvb
              have hva2 : vis a = true := by
                rw [hv2, Function.update_noteq hand] at hva
                exact hva
              have hold := hinv.cutEdges a b hva2 hvb2 hb0 hbN hadj
              have hne : init_edge a b (adj a b) ≠ p.1 := by
                intro heq
                rcases hndmem with h | h
                · rcases (init_edge_endpoints a b (adj a b)).1 with hia | hib
                  · exact hand (by rw [← hia, heq, ← h])
                  · exact hbne (by rw [← hib, heq, ← h])
                · rcases (init_edge_endpoints a b (adj a b)).2 with hja | hjb
                  · exact hand (by rw [← hja, heq, ← h])
                  · exact hbne (by rw [← hjb, heq, ← h])
              rcases List.mem_cons.mp (hperm.mem_iff.mpr hold) with heq | hm2
              · exact absurd heq hne
              · exact hamono _ hm2
          · intro e he
            rcases hafrom e he with hold | ⟨nb, hnb, hadjnb, hvisnb, heq⟩
            · exact hinv.stored e (hperm.mem_iff.mp (List.mem_cons_of_mem _ hold))
            · obtain ⟨hcase, _, hw⟩ := init_edge_fields nd (nb : Int) (adj nd (nb : Int))
              rw [heq]
              rcases hcase with ⟨h1, h3⟩ | ⟨h1, h3⟩
              · exact ⟨by rw [h1]; exact hndrange,
                  by rw [h3]; exact ⟨by omega, by omega⟩,
                  by rw [h1, h3, hw],
                  by rw [hw]; exact hadjnb⟩
              · exact ⟨by rw [h1]; exact ⟨by omega, by omega⟩,
                  by rw [h3]; exact hndrange,
                  by rw [h1, h3, hw]; exact hsym (nb : Int) nd,
                  by rw [hw]; exact hadjnb⟩
          · exact ha1
        have hvlt : visCard N vis < N := by
          have hle := visCard_le N vis2
          omega
        have hsplit : (N + 1) * (N - visCard N vis) =
            (N + 1) * (N - (visCard N vis + 1)) + N + 1 := by
          obtain ⟨Y, hY⟩ : ∃ Y, N - visCard N vis = Y + 1 :=
            ⟨N - visCard N vis - 1, by omega⟩
          rw [hY, show N - (visCard N vis + 1) = Y by omega]
          ring
        have ha2b : heap2.curEnd ≤ heap.curEnd - 1 + N := by
          rw [hcur] at ha2
          exact ha2
        have hB : heap2.curEnd + (N + 1) * (N - visCard N vis2) ≤ fuel := by
          rw [hvc]
          rw [hsplit] at hfuel
          exact key1 fuel heap.curEnd heap2.curEnd _ h2 ha2b hfuel
        obtain ⟨hlen, hstable⟩ := ih vis2 heap2 (acc ++ [p.1]) hinv2 hB
        have hrun : ∀ f : Nat, prim_loop N adj (f + 1) vis heap acc =
            prim_loop N adj f vis2 heap2 (acc ++ [p.1]) := by
          intro f
          rw [prim_loop_succ, if_pos hguard, ← hP, ← hnd, ← hv2, ← hh2,
            if_neg hvisnode]
        refine ⟨?_, ?_⟩
        · rw [hrun fuel]
          exact hlen
        · intro fuel2 hf2
          have h1f : 1 ≤ fuel2 :=
            le_trans (le_trans hinv.hpos (Nat.le_add_right _ _)) hf2
          obtain ⟨f2, rfl⟩ : ∃ f2, fuel2 = f2 + 1 := ⟨fuel2 - 1, by omega⟩
          rw [hrun f2, hrun fuel]
          refine hstable f2 ?_
          rw [hvc]
          rw [hsplit] at hf2
          exact key1 f2 heap.curEnd heap2.curEnd _ h2 ha2b hf2
    · -- loop exit: the heap is drained, so every vertex is visited
      have hexit : ∀ f : Nat, prim_loop N adj (f + 1) vis heap acc = acc := by
        intro f
        rw [prim_loop_succ, if_neg hguard]
      have hlen : acc.length = N - 1 := by
        rcases not_and_or.mp hguard with hheap | hacc
        · have hcur1 : heap.curEnd = 1 := by omega
          have hempty : heapList heap = [] := by
            rw [heapList, listOf, hcur1]
            rfl
          have hall : ∀ v : Int, 0 ≤ v → v < (N : Int) → vis v = true := by
            intro v hv0 hvN
            cases hvv : vis v with
            | true => rfl
            | false =>
              have hpath := hconn 0 v (le_refl 0) (by omega) hv0 hvN
              obtain ⟨a, c, hva, hvc, hc0, hcN, hadj⟩ :=
                exists_cut N adj vis hinv.vis0 hpath hvv
              have := hinv.cutEdges a c hva hvc hc0 hcN hadj
              rw [hempty] at this
              exact absurd this (List.not_mem_nil _)
          have hfullv := visCard_full N vis hall
          have hcount := hinv.count
          omega
        · have hcount := hinv.count
          have hle := visCard_le N vis
          omega
      refine ⟨by rw [hexit fuel]; exact hlen, ?_⟩
      intro fuel2 hf2
      have h1f : 1 ≤ fuel2 :=
        le_trans (le_trans hinv.hpos (Nat.le_add_right _ _)) hf2
      obtain ⟨f2, rfl⟩ : ∃ f2, fuel2 = f2 + 1 := ⟨fuel2 - 1, by omega⟩
      rw [hexit f2, hexit fuel]

/-- `C2`: on every connected graph (symmetric matrix) with `N ≥ 1`
vertices, `sequential_prim` — vertex 0 visited first, heap-minimum pops,
stale entries discarded, fresh vertices emitted and expanded — emits
exactly `N - 1` edges, and the `while` loop terminates: any fuel at
least the bound the embedding supplies yields the same run. -/
theorem C2_sequential_prim_spanning (N M : Nat) (adj : Int → Int → Int)
    (hN : 1 ≤ N) (hsym : ∀ a b : Int, adj a b = adj b a)
    (hconn : Connected N adj) :
    (sequential_prim N M adj).length = N - 1 ∧
    (∀ fuel : Nat, (N + 1) * (N + 1) ≤ fuel →
      prim_loop N adj fuel (fun v => decide (v = 0))
        (add_neighbors 0 N adj (fun v => decide (v = 0)) (create_heap M)) [] =
      sequential_prim N M adj) := by
  have h0pos : 1 ≤ (create_heap M).curEnd := le_refl 1
  set vis0F : Int → Bool := fun v => decide (v = 0) with hv0
  obtain ⟨⟨ha1, ha2⟩, hamono, hafrom, hanew⟩ :=
    add_neighbors_spec 0 adj vis0F N (create_heap M) h0pos
  set heap0 := add_neighbors 0 N adj vis0F (create_heap M) with hh0
  have hvc : visCard N vis0F = 1 := by
    unfold visCard
    have hset : (Finset.Ico (0 : Int) (N : Int)).filter (fun v => vis0F v = true)
        = {0} := by
      ext x
      simp only [Finset.mem_filter, Finset.mem_Ico, Finset.mem_singleton, hv0]
      constructor
      · rintro ⟨_, hx⟩
        exact of_decide_eq_true hx
      · rintro rfl
        exact ⟨⟨le_refl 0, by omega⟩, by simp⟩
    rw [hset, Finset.card_singleton]
  have hinv : PrimInv N adj vis0F heap0 [] := by
    refine ⟨?_, ?_, ?_, ?_, ?_, ?_⟩
    · rw [hv0]
      simp
    · intro v hv
      rw [hv0] at hv
      have hveq : v = 0 := of_decide_eq_true hv
      rw [hveq]
      exact ⟨le_refl 0, by omega⟩
    · rw [hvc]
      rfl
    · intro a b hva hvb hb0 hbN hadj
      rw [hv0] at hva hvb
      have ha0 : a = 0 := of_decide_eq_true hva
      have hbne : ¬b = 0 := of_decide_eq_false hvb
      have hb2 : ((b.toNat : Nat) : Int) = b := Int.toNat_of_nonneg hb0
      rw [ha0] at hadj
      have hnew := hanew b.toNat (by omega)
        (by rw [hb2]; exact hadj)
        (by rw [hv0]; refine decide_eq_false ?_; rw [hb2]; exact hbne)
      rw [hb2] at hnew
      rw [ha0]
      exact hnew
    · intro e he
      rcases hafrom e he with hold | ⟨nb, hnb, hadjnb, hvisnb, heq⟩
      · have hemp : heapList (create_heap M) = [] := rfl
        rw [hemp] at hold
        exact absurd hold (List.not_mem_nil _)
      · obtain ⟨hcase, _, hw⟩ := init_edge_fields 0 (nb : Int) (adj 0 (nb : Int))
        rw [heq]
        rcases hcase with ⟨h1, h3⟩ | ⟨h1, h3⟩
        · exact ⟨by rw [h1]; exact ⟨le_refl 0, by omega⟩,
            by rw [h3]; exact ⟨by omega, by omega⟩,
            by rw [h1, h3, hw],
            by rw [hw]; exact hadjnb⟩
        · exact ⟨by rw [h1]; exact ⟨by omega, by omega⟩,
            by rw [h3]; exact ⟨le_refl 0, by omega⟩,
            by rw [h1, h3, hw]; exact hsym (nb : Int) 0,
            by rw [hw]; exact hadjnb⟩
    · exact ha1
  have hB : heap0.curEnd + (N + 1) * (N - visCard N vis0F) ≤ (N + 1) * (N + 1) := by
    rw [hvc]
    have h1 : heap0.curEnd ≤ 1 + N := by
      have hcm : (create_heap M).curEnd = 1 := rfl
      rw [hcm] at ha2
      exact ha2
    obtain ⟨K, hK⟩ : ∃ K, N = K + 1 := ⟨N - 1, by omega⟩
    subst hK
    rw [show K + 1 - 1 = K from rfl]
    have hexp : (K + 1 + 1) * (K + 1 + 1) = (K + 1 + 1) * K + 2 * K + 4 := by
      ring
    rw [hexp]
    generalize (K + 1 + 1) * K = A
    omega
  obtain ⟨hlen, hstable⟩ := prim_loop_spec N adj hsym hconn hN
    ((N + 1) * (N + 1)) vis0F heap0 [] hinv hB
  refine ⟨hlen, ?_⟩
  intro fuel hf
  exact hstable fuel (le_trans hB hf)

/-- Witness for `C2` on the connected two-vertex graph `adjK2`. -/
theorem C2_sequential_prim_spanning_witness :
    (1 ≤ 2 ∧ (∀ a b : Int, adjK2 a b = adjK2 b a) ∧ Connected 2 adjK2) ∧
    (sequential_prim 2 1 adjK2).length = 2 - 1 :=
  have hsym : ∀ a b : Int, adjK2 a b = adjK2 b a := by
    intro a b
    unfold adjK2
    split_ifs <;> omega
  ⟨⟨by omega, hsym, adjK2_connected⟩,
    (C2_sequential_prim_spanning 2 1 adjK2 (by omega) hsym adjK2_connected).1⟩

end MST
